import Mathlib

/-!
Verification of the skiller repository core: registry identity and
configuration model (internal/config/config.go), the marker-based scan
engine (internal/scan), the install/uninstall engine (internal/install),
the recursive copy engine (internal/fsutil/copy.go) and the auth-error
classifier of the registry synchronizer (internal/registrysync/sync.go).

Shallow embedding conventions:
- Go strings are Lean `String`s; Go byte values are `Nat`s below 256.
- Go errors are `Except String` / `Option` results; a Go `error` value held
  in a variable is an `Option String` (`none` = nil error).
- The filesystem is a rooted tree (`FsNode`); OS paths handled by the
  install/scan/copy engines are lists of path components (`filepath.Join h s`
  becomes `h ++ [s]`; the components never contain separators).
- Symbolic links are opaque: the model never resolves a link target, and a
  call that would resolve one (`os.Stat` through a symlink) reports
  not-found, i.e. every modelled symlink behaves as a dangling link.  The
  scan, copy and install engines under verification only lstat links
  (`entry.Type()`, `Readlink`), which the model represents exactly.
- `os.ExpandEnv`, `os.UserHomeDir` and the working directory used by
  `filepath.Abs` are abstracted into an `Os` record of oracles; the pure
  Go path functions (`filepath.Clean`, `filepath.Join`, ...) are embedded
  as executable Lean functions.
-/

namespace Skiller

/-! ## String helpers (Go strings / path/filepath lexical functions) -/

/-- Go `unicode.IsSpace` restricted to the ASCII whitespace characters
(sufficient for every string the verified code manipulates). -/
def isSpaceChar (c : Char) : Bool :=
  c = ' ' || c = '\t' || c = '\n' || c = '\r' || c = (Char.ofNat 11) || c = (Char.ofNat 12)

/-- Go `strings.TrimSpace`. -/
def trimSpace (s : String) : String :=
  String.mk (((s.data.dropWhile isSpaceChar).reverse.dropWhile isSpaceChar).reverse)

/-- Go `strings.Trim(s, "/")` composed after a `TrimSpace`, as used for the
`Subdir` field: drop leading and trailing `/` characters. -/
def trimSlashes (s : String) : String :=
  String.mk (((s.data.dropWhile (· = '/')).reverse.dropWhile (· = '/')).reverse)

/-- List infix test: `containsList hay needle` holds when `needle` occurs
contiguously inside `hay` (Go `strings.Contains` on char lists). -/
def containsList (hay needle : List Char) : Bool :=
  match hay with
  | [] => needle.isEmpty
  | _ :: rest => needle.isPrefixOf hay || containsList rest needle

/-- Go `strings.Contains`. -/
def strContains (s sub : String) : Bool :=
  containsList s.data sub.data

/-- Go `strings.ToLower` (ASCII range; the classifier markers are ASCII). -/
def toLowerStr (s : String) : String :=
  String.mk (s.data.map Char.toLower)

/-- Go `strings.HasPrefix`. -/
def hasPrefixStr (s pre : String) : Bool :=
  pre.data.isPrefixOf s.data

/-- Go `strings.HasSuffix`. -/
def hasSuffixStr (s suf : String) : Bool :=
  suf.data.reverse.isPrefixOf s.data.reverse

/-! ## RegistrySync: auth-error classification (internal/registrysync/sync.go) -/

/-- The fixed marker list of `IsAuthError` in internal/registrysync/sync.go. -/
def authMarkers : List String :=
  [ "terminal prompts disabled"
  , "authentication failed"
  , "could not read username"
  , "permission denied (publickey)"
  , "publickey"
  , "passphrase"
  , "repository not found" ]

/-- Model of `IsAuthError` (internal/registrysync/sync.go): a nil error is
never an auth error; otherwise the lowercased message is matched against the
fixed marker list. The Go error is modelled as `Option String` (`none` = nil,
`some msg` = an error whose `Error()` is `msg`). -/
def IsAuthError (err : Option String) : Bool :=
  match err with
  | none => false
  | some msg =>
    let message := toLowerStr msg
    authMarkers.any (fun marker => strContains message marker)

/-- C9: `IsAuthError` returns true for every non-nil error whose lowercased
message contains any one of the fixed auth marker substrings, and returns
false for a nil error and for any message containing none of the markers. -/
theorem C9_isAuthError_classification :
    (∀ msg : String, ∀ m ∈ authMarkers, strContains (toLowerStr msg) m = true →
      IsAuthError (some msg) = true)
    ∧ (∀ msg : String,
        (∀ m ∈ authMarkers, strContains (toLowerStr msg) m = false) →
          IsAuthError (some msg) = false)
    ∧ IsAuthError none = false := by
  refine ⟨?_, ?_, rfl⟩
  · intro msg m hm h
    simp only [IsAuthError, List.any_eq_true]
    exact ⟨m, hm, h⟩
  · intro msg h
    simp only [IsAuthError]
    rw [Bool.eq_false_iff]
    intro hany
    rw [List.any_eq_true] at hany
    obtain ⟨m, hm, hc⟩ := hany
    rw [h m hm] at hc
    exact Bool.false_ne_true hc

/-- Witness for C9 at concrete messages: a mixed-case authentication failure
and a message mentioning disabled terminal prompts are classified as auth
errors; a generic failure is not. -/
theorem C9_isAuthError_classification_witness :
    IsAuthError (some "fatal: Authentication failed for repo") = true
    ∧ IsAuthError (some "fatal: could not fetch: terminal prompts disabled") = true
    ∧ IsAuthError (some "network unreachable") = false := by
  refine ⟨C9_isAuthError_classification.1 _ "authentication failed"
      (by decide) (by decide),
    C9_isAuthError_classification.1 _ "terminal prompts disabled"
      (by decide) (by decide), ?_⟩
  exact C9_isAuthError_classification.2.1 "network unreachable" (by decide)

/-! ## SHA-1 (crypto/sha1) and hex encoding (encoding/hex), used by `registryID` -/

/-- Reduce modulo 2^32 (Go `uint32` arithmetic). -/
def w32 (n : Nat) : Nat := n % 4294967296

/-- Left-rotate a 32-bit word by `s` bits (0 < s < 32). -/
def rotl32 (x s : Nat) : Nat := w32 ((x <<< s) ||| (x >>> (32 - s)))

/-- Big-endian 32-bit word from four bytes. -/
def beWord (a b c d : Nat) : Nat := ((a * 256 + b) * 256 + c) * 256 + d

/-- Big-endian byte serialization of a 32-bit word. -/
def wordBytes (x : Nat) : List Nat :=
  [x / 16777216 % 256, x / 65536 % 256, x / 256 % 256, x % 256]

/-- Group a byte list (whose length is a multiple of 4) into 32-bit words. -/
def toWords : List Nat → List Nat
  | a :: b :: c :: d :: rest => beWord a b c d :: toWords rest
  | _ => []

/-- One extension step list, most recent word first: prepend
`rotl1 (w[t-3] xor w[t-8] xor w[t-14] xor w[t-16])` `k` times. -/
def extendLoop : Nat → List Nat → List Nat
  | 0, rws => rws
  | k + 1, rws =>
    extendLoop k
      (rotl32 ((rws.getD 2 0) ^^^ (rws.getD 7 0) ^^^ (rws.getD 13 0) ^^^ (rws.getD 15 0)) 1 :: rws)

/-- The 80-word SHA-1 message schedule of a 16-word chunk. -/
def schedule (ws : List Nat) : List Nat := (extendLoop 64 ws.reverse).reverse

/-- One SHA-1 round: state is `(a, b, c, d, e)` and the round index;
`wt` is the scheduled word. -/
def sha1Round (st : Nat × Nat × Nat × Nat × Nat) (t : Nat) (wt : Nat) :
    Nat × Nat × Nat × Nat × Nat :=
  let (a, b, c, d, e) := st
  let f :=
    if t < 20 then (b &&& c) ||| ((4294967295 ^^^ b) &&& d)
    else if t < 40 then b ^^^ c ^^^ d
    else if t < 60 then (b &&& c) ||| (b &&& d) ||| (c &&& d)
    else b ^^^ c ^^^ d
  let k :=
    if t < 20 then 1518500249
    else if t < 40 then 1859775393
    else if t < 60 then 2400959708
    else 3395469782
  let temp := w32 (rotl32 a 5 + f + e + k + wt)
  (temp, a, rotl32 b 30, c, d)

/-- Compress one 64-byte chunk into the running hash state. -/
def processChunk (h : Nat × Nat × Nat × Nat × Nat) (chunk : List Nat) :
    Nat × Nat × Nat × Nat × Nat :=
  let ws := schedule (toWords chunk)
  let (h0, h1, h2, h3, h4) := h
  let final := (ws.foldl
    (fun (acc : (Nat × Nat × Nat × Nat × Nat) × Nat) wt =>
      (sha1Round acc.1 acc.2 wt, acc.2 + 1))
    ((h0, h1, h2, h3, h4), 0)).1
  let (a, b, c, d, e) := final
  (w32 (h0 + a), w32 (h1 + b), w32 (h2 + c), w32 (h3 + d), w32 (h4 + e))

/-- SHA-1 padding: append `0x80`, zero bytes to 56 mod 64, then the 64-bit
big-endian bit length. -/
def sha1Pad (msg : List Nat) : List Nat :=
  let len := msg.length
  let zeros := (119 - len % 64) % 64
  let bitLen := 8 * len
  msg ++ 128 :: List.replicate zeros 0 ++
    [bitLen / 72057594037927936 % 256, bitLen / 281474976710656 % 256,
     bitLen / 1099511627776 % 256, bitLen / 4294967296 % 256,
     bitLen / 16777216 % 256, bitLen / 65536 % 256, bitLen / 256 % 256, bitLen % 256]

/-- Split a byte list into 64-byte chunks; the fuel is the list length,
always sufficient since every chunk consumes at least one byte. -/
def chunks64F : Nat → List Nat → List (List Nat)
  | 0, _ => []
  | _, [] => []
  | fuel + 1, l => l.take 64 :: chunks64F fuel (l.drop 64)

/-- Split a byte list into 64-byte chunks. -/
def chunks64 (l : List Nat) : List (List Nat) := chunks64F l.length l

/-- SHA-1 digest of a byte message, as the 20-byte list (crypto/sha1 `Sum`). -/
def sha1Bytes (msg : List Nat) : List Nat :=
  let init : Nat × Nat × Nat × Nat × Nat :=
    (1732584193, 4023233417, 2562383102, 271733878, 3285377520)
  let (h0, h1, h2, h3, h4) := (chunks64 (sha1Pad msg)).foldl processChunk init
  wordBytes h0 ++ wordBytes h1 ++ wordBytes h2 ++ wordBytes h3 ++ wordBytes h4

/-- The sixteen lowercase hex digits. -/
def hexDigits : List Char :=
  (List.range 16).map fun n =>
    if n < 10 then Char.ofNat (48 + n) else Char.ofNat (87 + n)

/-- Lowercase hex digit of a value below sixteen. -/
def hexDigit (n : Nat) : Char := hexDigits.getD n '0'

/-- Go `hex.EncodeToString` over a byte list, as a char list. -/
def hexChars : List Nat → List Char
  | [] => []
  | b :: rest => hexDigit (b / 16 % 16) :: hexDigit (b % 16) :: hexChars rest

/-- UTF-8 encoding of one scalar value (Go strings are UTF-8 byte sequences). -/
def utf8EncodeChar (c : Char) : List Nat :=
  let n := c.toNat
  if n < 128 then [n]
  else if n < 2048 then [192 + n / 64, 128 + n % 64]
  else if n < 65536 then [224 + n / 4096, 128 + n / 64 % 64, 128 + n % 64]
  else [240 + n / 262144, 128 + n / 4096 % 64, 128 + n / 64 % 64, 128 + n % 64]

/-- The UTF-8 bytes of a string (Go `[]byte(s)`). -/
def utf8Bytes (s : String) : List Nat :=
  s.data.foldr (fun c acc => utf8EncodeChar c ++ acc) []

/-- Hex-encoded SHA-1 digest of a string, as Go's
`hex.EncodeToString(sha1.Sum([]byte(key))[:])`. -/
def sha1Hex (s : String) : List Char := hexChars (sha1Bytes (utf8Bytes s))

theorem wordBytes_length (x : Nat) : (wordBytes x).length = 4 := rfl

theorem sha1Bytes_length (msg : List Nat) : (sha1Bytes msg).length = 20 := by
  unfold sha1Bytes
  generalize (chunks64 (sha1Pad msg)).foldl processChunk
    (1732584193, 4023233417, 2562383102, 271733878, 3285377520) = h
  obtain ⟨h0, h1, h2, h3, h4⟩ := h
  simp [wordBytes]

theorem hexChars_length (l : List Nat) : (hexChars l).length = 2 * l.length := by
  induction l with
  | nil => rfl
  | cons b rest ih => simp [hexChars, ih]; omega

theorem sha1Hex_length (s : String) : (sha1Hex s).length = 40 := by
  simp [sha1Hex, hexChars_length, sha1Bytes_length]

theorem hexDigit_mem (n : Nat) : hexDigit n ∈ hexDigits := by
  unfold hexDigit
  rcases Nat.lt_or_ge n hexDigits.length with h | h
  · rw [List.getD_eq_getElem _ _ h]
    exact List.getElem_mem h
  · rw [List.getD_eq_default _ _ h]
    decide

theorem hexChars_mem (l : List Nat) : ∀ c ∈ hexChars l, c ∈ hexDigits := by
  induction l with
  | nil => intro c hc; cases hc
  | cons b rest ih =>
    intro c hc
    simp only [hexChars, List.mem_cons] at hc
    rcases hc with h | h | h
    · exact h ▸ hexDigit_mem _
    · exact h ▸ hexDigit_mem _
    · exact ih c h

/-! ## PathResolver: filepath.Clean / Join / Abs, os.Expand, ExpandPath -/

/-- One step of Go `path/filepath.Clean`'s element loop: `out` holds the
emitted elements in reverse. -/
def cleanStep (rooted : Bool) (out : List String) (seg : String) : List String :=
  if seg = "" ∨ seg = "." then out
  else if seg = ".." then
    match out with
    | top :: rest => if top = ".." then ".." :: out else rest
    | [] => if rooted then [] else [".."]
  else seg :: out

/-- Split a char list at every occurrence of `c` (Go `strings.Split`
behaviour on the separator `/`); `acc` holds the current element reversed. -/
def splitOnCharAux (c : Char) : List Char → List Char → List String
  | [], acc => [String.mk acc.reverse]
  | x :: rest, acc =>
    if x = c then String.mk acc.reverse :: splitOnCharAux c rest []
    else splitOnCharAux c rest (x :: acc)

/-- Split a string at every occurrence of `c`. -/
def splitOnChar (c : Char) (s : String) : List String :=
  splitOnCharAux c s.data []

/-- Join elements with a separator (Go `strings.Join`). -/
def joinWith (sep : String) : List String → String
  | [] => ""
  | [x] => x
  | x :: rest => x ++ sep ++ joinWith sep rest

/-- Go `path/filepath.Clean` (unix rules): drop empty and `.` elements,
resolve `..` lexically, preserve rootedness, empty result becomes `.`. -/
def cleanPath (p : String) : String :=
  if p = "" then "."
  else
    let rooted := hasPrefixStr p "/"
    let out := (splitOnChar '/' p).foldl (cleanStep rooted) []
    let body := joinWith "/" out.reverse
    if rooted then "/" ++ body
    else if body = "" then "." else body

/-- Go `path/filepath.IsAbs` (unix). -/
def isAbsStr (p : String) : Bool := hasPrefixStr p "/"

/-- Go `path/filepath.Join` of two elements: empty elements are dropped,
the result is cleaned. -/
def joinPath (a b : String) : String :=
  if a = "" then cleanPath b
  else if b = "" then cleanPath a
  else cleanPath (a ++ "/" ++ b)

/-- Go `strings.TrimPrefix`. -/
def dropPrefixStr (s pre : String) : String :=
  if hasPrefixStr s pre then String.mk (s.data.drop pre.data.length) else s

/-- Go `strings.TrimSuffix`. -/
def dropSuffixStr (s suf : String) : String :=
  if hasSuffixStr s suf then String.mk (s.data.take (s.data.length - suf.data.length)) else s

/-- External-environment oracles consulted by the config component: the
process environment (`os.Getenv`, absent variables yield `""`), the user home
directory (`os.UserHomeDir`), the working directory used by `filepath.Abs`,
and the `net/url`-based fallback of `IsGitSource` (`url.Parse` succeeding
with scheme in http/https/ssh, non-empty host and non-empty path), which is
Go standard-library behaviour abstracted as an oracle. -/
structure Os where
  env : String → String
  home : Except String String
  cwd : String
  urlGitHost : String → Bool

/-- Go shell variable name characters (`isAlphaNum` in os). -/
def isAlphaNumChar (c : Char) : Bool :=
  c = '_' || ('0' ≤ c ∧ c ≤ '9') || ('a' ≤ c ∧ c ≤ 'z') || ('A' ≤ c ∧ c ≤ 'Z')

/-- Go shell special variable characters (`isShellSpecialVar` in os). -/
def isShellSpecialChar (c : Char) : Bool :=
  c = '*' || c = '#' || c = '$' || c = '@' || c = '!' || c = '?' || ('0' ≤ c ∧ c ≤ '9')

/-- Brace scan of Go `os.getShellName` after a `${`: find the closing brace;
`some ("", rest)` means invalid syntax whose characters are eaten. -/
def scanBrace (rest : List Char) : Option (String × List Char) :=
  let pre := rest.takeWhile (· ≠ '}')
  match rest.drop pre.length with
  | '}' :: r => if pre = [] then some ("", r) else some (String.mk pre, r)
  | _ => some ("", rest)

/-- Go `os.getShellName` over the characters after a `$`: `none` means the
dollar is left untouched, `some (name, rest)` consumes up to `rest`, emitting
the mapped `name` (or nothing when `name` is empty: invalid syntax eaten). -/
def getShellName : List Char → Option (String × List Char)
  | [] => none
  | '{' :: rest =>
    match rest with
    | c1 :: '}' :: r => if isShellSpecialChar c1 then some (String.mk [c1], r) else scanBrace rest
    | _ => scanBrace rest
  | c :: rest =>
    if isShellSpecialChar c then some (String.mk [c], rest)
    else
      let pre := (c :: rest).takeWhile isAlphaNumChar
      if pre = [] then none
      else some (String.mk pre, (c :: rest).drop pre.length)

/-- Main loop of Go `os.Expand` with `os.Getenv` as the mapping; the fuel is
the remaining input length (always sufficient: each step consumes at least
one character). -/
def expandLoop (env : String → String) : Nat → List Char → List Char
  | 0, l => l
  | _, [] => []
  | fuel + 1, c :: rest =>
    if c = '$' ∧ rest ≠ [] then
      match getShellName rest with
      | none => '$' :: expandLoop env fuel rest
      | some (name, rest') =>
        (if name = "" then [] else (env name).data) ++ expandLoop env fuel rest'
    else c :: expandLoop env fuel rest

/-- Go `os.ExpandEnv`. -/
def expandEnvStr (env : String → String) (s : String) : String :=
  String.mk (expandLoop env s.data.length s.data)

/-- Go `path/filepath.Abs`: clean an absolute path, otherwise join onto the
working directory. -/
def absPath (os : Os) (p : String) : String :=
  if isAbsStr p then cleanPath p else joinPath os.cwd p

/-- Model of `ExpandPath` (internal/config/config.go): trim, expand
environment variables, expand a leading `~`, make absolute, clean. -/
def ExpandPath (os : Os) (path : String) : Except String String :=
  let trimmed := trimSpace path
  if trimmed = "" then .error "path is empty"
  else
    let expanded := expandEnvStr os.env trimmed
    let withHome : Except String String :=
      if hasPrefixStr expanded "~/" ∨ expanded = "~" then
        match os.home with
        | .error e => .error e
        | .ok home =>
          .ok (if expanded = "~" then home else joinPath home (dropPrefixStr expanded "~/"))
      else .ok expanded
    match withHome with
    | .error e => .error e
    | .ok expanded2 => .ok (cleanPath (absPath os expanded2))

/-! ## RegistryModel (internal/config/config.go) -/

/-- A registry entry; `type` is the Go `RegistryType` string (`"local"` or
`"git"`). -/
structure Registry where
  id : String
  name : String
  type : String
  source : String
  ref : String
  subdir : String
deriving Repr, DecidableEq

/-- The persisted configuration document (current schema). -/
structure Config where
  registries : List Registry
  harnesses : List String
deriving Repr, DecidableEq

/-- Current-schema decode target (`configV2`). -/
structure ConfigV2 where
  registries : List Registry
  harnesses : List String
deriving Repr, DecidableEq

/-- Legacy-schema decode target (`legacyConfigV1`): registries as bare path
strings. -/
structure LegacyConfigV1 where
  registries : List String
  harnesses : List String
deriving Repr, DecidableEq

/-- Model of `IsGitSource` (internal/config/config.go): explicit `git@`,
`ssh://`, `git://` prefixes, otherwise the `net/url` oracle. -/
def IsGitSource (os : Os) (source : String) : Bool :=
  let trimmed := trimSpace source
  if trimmed = "" then false
  else if hasPrefixStr trimmed "git@" || hasPrefixStr trimmed "ssh://"
      || hasPrefixStr trimmed "git://" then true
  else os.urlGitHost trimmed

/-- Index of the last occurrence of `c` in `l`, if any. -/
def lastIndexOfChar (l : List Char) (c : Char) : Option Nat :=
  match l.reverse.findIdx? (· = c) with
  | none => none
  | some j => some (l.length - 1 - j)

/-- Model of `splitGitRef` (internal/config/config.go): split a trailing
`#ref` suffix when the `#` is neither first nor last. -/
def splitGitRef (input : String) : String × String :=
  let l := input.data
  match lastIndexOfChar l '#' with
  | none => (input, "")
  | some idx =>
    if idx = 0 ∨ l.length - 1 ≤ idx then (input, "")
    else (trimSpace (String.mk (l.take idx)), trimSpace (String.mk (l.drop (idx + 1))))

/-- Model of `registryID` (internal/config/config.go): first 12 hex
characters of the SHA-1 of `type|source|ref|subdir`. The `name` and `id`
fields do not enter the key. -/
def registryID (registry : Registry) : String :=
  let key := registry.type ++ "|" ++ registry.source ++ "|" ++ registry.ref ++ "|" ++ registry.subdir
  let encoded := sha1Hex key
  if encoded.length < 12 then String.mk encoded else String.mk (encoded.take 12)

/-- Field-trimming prelude of `normalizeRegistry` (internal/config/config.go):
trim `name`, `source`, `ref`, and strip surrounding slashes from `subdir`. -/
def normalizeFields (registry : Registry) : Registry :=
  { registry with
    name := trimSpace registry.name
    source := trimSpace registry.source
    ref := trimSpace registry.ref
    subdir := trimSlashes (trimSpace registry.subdir) }

/-- Type-inference step of `normalizeRegistry`: a missing type is inferred
from the source shape. -/
def inferType (os : Os) (n : Registry) : Registry :=
  if n.type = "" then
    { n with type := if IsGitSource os n.source then "git" else "local" }
  else n

/-- Type switch of `normalizeRegistry`: local sources are resolved through
`ExpandPath` with `ref` forced empty; git sources must satisfy the
git-source heuristic; other types are rejected. -/
def applyTypeRules (os : Os) (n : Registry) : Except String Registry :=
  if n.type = "local" then
    match ExpandPath os n.source with
    | .error e => .error e
    | .ok expanded => .ok { n with source := expanded, ref := "" }
  else if n.type = "git" then
    if IsGitSource os n.source then .ok n else .error "invalid git registry source"
  else .error "unsupported registry type"

/-- Subdir-cleaning step of `normalizeRegistry`: a non-empty `subdir` is
cleaned, with `.` collapsing to empty. -/
def cleanSubdir (n : Registry) : Registry :=
  if n.subdir ≠ "" then
    { n with subdir := (let s := cleanPath n.subdir; if s = "." then "" else s) }
  else n

/-- Id-assignment step of `normalizeRegistry`: trim the id, assigning the
content hash when the trimmed id is empty. -/
def assignID (n : Registry) : Registry :=
  let n5 := { n with id := trimSpace n.id }
  if n5.id = "" then { n5 with id := registryID n5 } else n5

/-- Model of `normalizeRegistry` (internal/config/config.go), as the
sequence of its statements: trim fields, infer a missing type, reject an
empty source, apply the per-type rules, clean `subdir`, assign `id`. -/
def normalizeRegistry (os : Os) (registry : Registry) : Except String Registry :=
  let n2 := inferType os (normalizeFields registry)
  if n2.source = "" then .error "registry source is empty"
  else
    match applyTypeRules os n2 with
    | .error e => .error e
    | .ok n3 => .ok (assignID (cleanSubdir n3))

/-- The duplicate test of `appendUniqueRegistry`'s loop body: `existing`
matches by `id` or by full `(type, source, ref, subdir)` equality. -/
def registryMatches (registry existing : Registry) : Bool :=
  existing.id == registry.id ||
  (existing.type == registry.type && existing.source == registry.source &&
   existing.ref == registry.ref && existing.subdir == registry.subdir)

/-- Model of `appendUniqueRegistry` (internal/config/config.go): a duplicate
by `id` or by full `(type, source, ref, subdir)` equality is a no-op. -/
def appendUniqueRegistry (registries : List Registry) (registry : Registry) : List Registry :=
  if registries.any (registryMatches registry) then registries
  else registries ++ [registry]

/-- Model of `Config.AddLocalRegistry` (internal/config/config.go). -/
def AddLocalRegistry (os : Os) (c : Config) (path : String) : Except String Config :=
  match ExpandPath os path with
  | .error e => .error e
  | .ok expanded =>
    match normalizeRegistry os
        { id := "", name := "", type := "local", source := expanded, ref := "", subdir := "" } with
    | .error e => .error e
    | .ok registry => .ok { c with registries := appendUniqueRegistry c.registries registry }

/-- Model of `Config.AddGitRegistry` (internal/config/config.go). -/
def AddGitRegistry (os : Os) (c : Config) (source ref : String) : Except String Config :=
  let trimmedSource := trimSpace source
  if ¬IsGitSource os trimmedSource then .error "invalid git registry source"
  else
    match normalizeRegistry os
        { id := "", name := "", type := "git", source := trimmedSource,
          ref := trimSpace ref, subdir := "" } with
    | .error e => .error e
    | .ok registry => .ok { c with registries := appendUniqueRegistry c.registries registry }

/-- Model of `Config.AddRegistry` (internal/config/config.go): reject empty
input, split a `#ref` suffix, route on the git-source heuristic. -/
def AddRegistry (os : Os) (c : Config) (input : String) : Except String Config :=
  let trimmed := trimSpace input
  if trimmed = "" then .error "path is empty"
  else
    let split := splitGitRef trimmed
    if IsGitSource os split.1 then AddGitRegistry os c split.1 split.2
    else AddLocalRegistry os c trimmed

/-- Substring after the last occurrence of `c` when that occurrence is not
the final character (the guarded branch of `DisplayName`). -/
def afterLastChar (s : String) (c : Char) : Option String :=
  match lastIndexOfChar s.data c with
  | none => none
  | some idx =>
    if idx < s.data.length - 1 then some (String.mk (s.data.drop (idx + 1))) else none

/-- Model of `Registry.DisplayName` (internal/config/config.go). -/
def DisplayName (r : Registry) : String :=
  if trimSpace r.name ≠ "" then trimSpace r.name
  else if r.type = "git" then
    let trimmed := dropSuffixStr (trimSpace r.source) ".git"
    match afterLastChar trimmed '/' with
    | some t => t
    | none =>
      match afterLastChar trimmed ':' with
      | some t => t
      | none => trimSpace r.source
  else trimSpace r.source

/-- Boolean string comparison used to model Go string `<`. -/
def strLtB (a b : String) : Bool := decide (a < b)

/-- The `sort.Slice` comparator of `dedupeRegistries`. -/
def regLess (a b : Registry) : Bool :=
  if a.type = b.type then
    if DisplayName a = DisplayName b then strLtB a.source b.source
    else strLtB (DisplayName a) (DisplayName b)
  else strLtB a.type b.type

/-- Insertion into a list sorted by a strict comparator. -/
def insertByLess (less : α → α → Bool) (a : α) : List α → List α
  | [] => [a]
  | b :: r => if less a b then a :: b :: r else b :: insertByLess less a r

/-- Sorting by a strict comparator (models `sort.Slice`, whose output here is
determined by the comparator's keys). -/
def sortByLess (less : α → α → Bool) (l : List α) : List α :=
  l.foldr (insertByLess less) []

/-- Dedup loop of `dedupeRegistries`: re-normalize (dropping failures) and
keep the first entry for each `id`. -/
def dedupeLoop (os : Os) : List Registry → List String → List Registry
  | [], _ => []
  | registry :: rest, seen =>
    match normalizeRegistry os registry with
    | .error _ => dedupeLoop os rest seen
    | .ok normalized =>
      if seen.contains normalized.id then dedupeLoop os rest seen
      else normalized :: dedupeLoop os rest (normalized.id :: seen)

/-- Model of `dedupeRegistries` (internal/config/config.go): dedup by id then
sort by `(type, display name, source)`. -/
def dedupeRegistries (os : Os) (registries : List Registry) : List Registry :=
  sortByLess regLess (dedupeLoop os registries [])

/-- Model of `normalizeRegistries` (internal/config/config.go): normalize
each entry, dropping failures. -/
def normalizeRegistries (os : Os) (registries : List Registry) : List Registry :=
  registries.foldr
    (fun r acc =>
      match normalizeRegistry os r with
      | .error _ => acc
      | .ok n => n :: acc) []

/-- Dedup loop of `dedupePaths`: keep the first entry for each cleaned path. -/
def dedupeLoopPaths : List String → List String → List String
  | [], _ => []
  | p :: rest, seen =>
    let clean := cleanPath p
    if seen.contains clean then dedupeLoopPaths rest seen
    else clean :: dedupeLoopPaths rest (clean :: seen)

/-- Model of `dedupePaths` (internal/config/config.go). -/
def dedupePaths (paths : List String) : List String :=
  dedupeLoopPaths paths []

/-- Model of `normalizePaths` (internal/config/config.go): expand each path
(dropping failures), then dedupe. -/
def normalizePaths (os : Os) (paths : List String) : List String :=
  dedupePaths (paths.foldr
    (fun p acc =>
      match ExpandPath os p with
      | .error _ => acc
      | .ok e => e :: acc) [])

/-- Post-decode body of `loadV2` (internal/config/config.go). -/
def loadV2Decoded (os : Os) (decoded : ConfigV2) : Config :=
  { registries := dedupeRegistries os (normalizeRegistries os decoded.registries)
    harnesses := normalizePaths os decoded.harnesses }

/-- Post-decode body of `loadLegacyV1` (internal/config/config.go): migrate
every legacy string path into a local registry via `AddLocalRegistry`,
silently dropping paths that fail, then dedupe. -/
def loadLegacyV1Decoded (os : Os) (decoded : LegacyConfigV1) : Config :=
  let cfg : Config := { registries := [], harnesses := normalizePaths os decoded.harnesses }
  let cfg := decoded.registries.foldl
    (fun c registryPath =>
      match AddLocalRegistry os c registryPath with
      | .error _ => c
      | .ok c' => c') cfg
  { cfg with registries := dedupeRegistries os cfg.registries }

/-- Model of `Load` (internal/config/config.go) for an existing config file:
the two TOML decode attempts are abstracted as `Except` inputs (`v2` the
current-schema attempt, `v1` the legacy attempt); current schema is tried
first, the legacy schema second, and when both fail the current-schema error
surfaces. -/
def Load (os : Os) (v2 : Except String ConfigV2) (v1 : Except String LegacyConfigV1) :
    Except String Config :=
  match v2 with
  | .ok d => .ok (loadV2Decoded os d)
  | .error v2Err =>
    match v1 with
    | .ok d => .ok (loadLegacyV1Decoded os d)
    | .error _ => .error v2Err

/-! ## Registry identity determinism (C1) -/

theorem registryID_congr (r1 r2 : Registry) (ht : r1.type = r2.type)
    (hs : r1.source = r2.source) (hr : r1.ref = r2.ref) (hd : r1.subdir = r2.subdir) :
    registryID r1 = registryID r2 := by
  unfold registryID
  rw [ht, hs, hr, hd]

theorem registryID_ignores_id (r : Registry) (i : String) :
    registryID { r with id := i } = registryID r :=
  registryID_congr _ _ rfl rfl rfl rfl

theorem string_length_mk (l : List Char) : (String.mk l).length = l.length := rfl

theorem registryID_length (r : Registry) : (registryID r).length = 12 := by
  unfold registryID
  rw [if_neg (by rw [sha1Hex_length]; omega)]
  rw [string_length_mk, List.length_take, sha1Hex_length]
  exact Nat.min_eq_left (by omega)

theorem registryID_hex (r : Registry) : ∀ c ∈ (registryID r).data, c ∈ hexDigits := by
  intro c hc
  simp only [registryID] at hc
  split at hc <;> simp only [String.data] at hc
  · exact hexChars_mem _ c hc
  · exact hexChars_mem _ c (List.mem_of_mem_take hc)

theorem normalizeFields_id (r : Registry) : (normalizeFields r).id = r.id := rfl

theorem inferType_id (os : Os) (n : Registry) : (inferType os n).id = n.id := by
  unfold inferType; split <;> rfl

theorem applyTypeRules_id (os : Os) (n n3 : Registry)
    (h : applyTypeRules os n = .ok n3) : n3.id = n.id := by
  unfold applyTypeRules at h
  split at h
  · split at h
    · exact absurd h (by simp)
    · injection h with h; subst h; rfl
  · split at h
    · split at h
      · injection h with h; subst h; rfl
      · exact absurd h (by simp)
    · exact absurd h (by simp)

theorem cleanSubdir_id (n : Registry) : (cleanSubdir n).id = n.id := by
  unfold cleanSubdir; split <;> rfl

theorem Registry_id_update (r : Registry) (v : String) :
    ({ r with id := v } : Registry).id = v := rfl

theorem assignID_blank_eq (n : Registry) (h : trimSpace n.id = "") :
    assignID n =
      { ({ n with id := trimSpace n.id } : Registry) with
        id := registryID { n with id := trimSpace n.id } } := by
  show (if ({ n with id := trimSpace n.id } : Registry).id = "" then _ else _) = _
  exact if_pos h

theorem assignID_id_blank (n : Registry) (h : trimSpace n.id = "") :
    (assignID n).id = registryID (assignID n) := by
  rw [assignID_blank_eq n h]
  rw [Registry_id_update]
  exact registryID_congr _ _ rfl rfl rfl rfl

/-- Inversion of `normalizeRegistry`: when the input `id` trims to empty, the
normalized entry's `id` is the content hash of the normalized entry. -/
theorem normalizeRegistry_blank_id (os : Os) (r n : Registry)
    (h : normalizeRegistry os r = .ok n) (hid : trimSpace r.id = "") :
    n.id = registryID n := by
  simp only [normalizeRegistry] at h
  split at h
  · exact absurd h (by simp)
  split at h
  · exact absurd h (by simp)
  rename_i n3 heq
  injection h with h
  subst h
  have h3 : trimSpace (cleanSubdir n3).id = "" := by
    rw [cleanSubdir_id, applyTypeRules_id os _ n3 heq, inferType_id, normalizeFields_id, hid]
  exact assignID_id_blank _ h3

/-- C1: registries whose normalized `(type, source, ref, subdir)` tuples
agree receive the same auto-assigned id, regardless of their `name` fields:
the id is a deterministic content hash of those four fields alone, truncated
to 12 lowercase hex characters. -/
theorem C1_registry_id_deterministic (os : Os) (r1 r2 n1 n2 : Registry)
    (h1 : normalizeRegistry os r1 = .ok n1) (h2 : normalizeRegistry os r2 = .ok n2)
    (hb1 : trimSpace r1.id = "") (hb2 : trimSpace r2.id = "")
    (ht : n1.type = n2.type) (hs : n1.source = n2.source)
    (hr : n1.ref = n2.ref) (hd : n1.subdir = n2.subdir) :
    n1.id = n2.id ∧ n1.id.length = 12 ∧ ∀ c ∈ n1.id.data, c ∈ hexDigits := by
  have e1 := normalizeRegistry_blank_id os r1 n1 h1 hb1
  have e2 := normalizeRegistry_blank_id os r2 n2 h2 hb2
  refine ⟨?_, ?_, ?_⟩
  · rw [e1, e2]
    exact registryID_congr _ _ ht hs hr hd
  · rw [e1]
    exact registryID_length _
  · rw [e1]
    exact registryID_hex _

/-- A fixed concrete environment for witnesses: empty env, home `/home/u`,
working directory `/cwd`, and a URL oracle refusing everything (the witness
sources all use explicit prefixes or local paths). -/
def witOs : Os :=
  { env := fun _ => "", home := .ok "/home/u", cwd := "/cwd", urlGitHost := fun _ => false }

set_option maxRecDepth 100000 in
/-- Witness for C1: two local registries over the same path with different
names normalize to the same 12-hex-character id. -/
theorem C1_registry_id_deterministic_witness :
    ∃ n1 n2 : Registry,
      normalizeRegistry witOs ⟨"", "alice", "local", "/tmp/a", "", ""⟩ = .ok n1 ∧
      normalizeRegistry witOs ⟨"", "bob", "local", " /tmp/a ", "", ""⟩ = .ok n2 ∧
      n1.id = n2.id ∧ n1.id.length = 12 := by
  have h := C1_registry_id_deterministic witOs
    ⟨"", "alice", "local", "/tmp/a", "", ""⟩ ⟨"", "bob", "local", " /tmp/a ", "", ""⟩
    ⟨"a742347c83bf", "alice", "local", "/tmp/a", "", ""⟩
    ⟨"a742347c83bf", "bob", "local", "/tmp/a", "", ""⟩
    rfl rfl rfl rfl rfl rfl rfl rfl
  exact ⟨_, _, rfl, rfl, h.1, h.2.1⟩

/-! ## Duplicate add is a no-op (C3) -/

theorem registryMatches_self (r : Registry) : registryMatches r r = true := by
  simp [registryMatches]

theorem appendUniqueRegistry_idem (rs : List Registry) (r : Registry) :
    appendUniqueRegistry (appendUniqueRegistry rs r) r = appendUniqueRegistry rs r := by
  unfold appendUniqueRegistry
  by_cases h : rs.any (registryMatches r) = true
  · rw [if_pos h, if_pos h]
  · rw [if_neg h]
    have hall : ((rs ++ [r]).any (registryMatches r)) = true := by
      rw [List.any_append]
      simp [registryMatches_self]
    rw [if_pos hall]

theorem appendUniqueRegistry_nil (r : Registry) : appendUniqueRegistry [] r = [r] := by
  simp [appendUniqueRegistry]

/-- Re-adding through `AddGitRegistry` with the same arguments is a no-op,
and the registry list only ever grows by the one appended entry. -/
theorem AddGitRegistry_idem (os : Os) (c c' : Config) (s rf : String)
    (h : AddGitRegistry os c s rf = .ok c') :
    AddGitRegistry os c' s rf = .ok c' ∧
    ∃ reg, c' = { c with registries := appendUniqueRegistry c.registries reg } := by
  simp only [AddGitRegistry] at h ⊢
  split at h
  · exact absurd h (by simp)
  rename_i hgit
  rw [if_neg hgit]
  split at h
  · exact absurd h (by simp)
  rename_i reg heq
  injection h with h
  subst h
  refine ⟨?_, reg, rfl⟩
  simp [appendUniqueRegistry_idem]

/-- Re-adding through `AddLocalRegistry` with the same argument is a no-op,
and the registry list only ever grows by the one appended entry. -/
theorem AddLocalRegistry_idem (os : Os) (c c' : Config) (p : String)
    (h : AddLocalRegistry os c p = .ok c') :
    AddLocalRegistry os c' p = .ok c' ∧
    ∃ reg, c' = { c with registries := appendUniqueRegistry c.registries reg } := by
  simp only [AddLocalRegistry] at h ⊢
  split at h
  · exact absurd h (by simp)
  rename_i e hexp
  split at h
  · exact absurd h (by simp)
  rename_i reg heq
  injection h with h
  subst h
  refine ⟨?_, reg, rfl⟩
  simp [appendUniqueRegistry_idem]

/-- C3: calling `AddRegistry` twice with the same input string leaves the
registry collection with exactly one entry for that input — the duplicate
add is a silent no-op returning the same configuration, and an add into an
empty collection yields exactly one entry. -/
theorem C3_addRegistry_duplicate_noop (os : Os) (c : Config) (input : String) (c' : Config)
    (h : AddRegistry os c input = .ok c') :
    AddRegistry os c' input = .ok c' ∧
    (c.registries = [] → c'.registries.length = 1) := by
  simp only [AddRegistry] at h ⊢
  split at h
  · exact absurd h (by simp)
  rename_i hne
  rw [if_neg hne]
  split at h <;> rename_i hroute
  · rw [if_pos hroute]
    obtain ⟨hidem, reg, hc'⟩ := AddGitRegistry_idem os c c' _ _ h
    refine ⟨hidem, ?_⟩
    intro hnil
    subst hc'
    rw [hnil]
    rw [appendUniqueRegistry_nil]
    rfl
  · rw [if_neg hroute]
    obtain ⟨hidem, reg, hc'⟩ := AddLocalRegistry_idem os c c' _ h
    refine ⟨hidem, ?_⟩
    intro hnil
    subst hc'
    rw [hnil]
    rw [appendUniqueRegistry_nil]
    rfl

set_option maxRecDepth 100000 in
/-- Witness for C3: adding `/tmp/a` to an empty configuration and adding it
again returns the same single-entry configuration. -/
theorem C3_addRegistry_duplicate_noop_witness :
    AddRegistry witOs { registries := [], harnesses := [] } "/tmp/a" =
      .ok { registries := [⟨"a742347c83bf", "", "local", "/tmp/a", "", ""⟩], harnesses := [] } ∧
    AddRegistry witOs
        { registries := [⟨"a742347c83bf", "", "local", "/tmp/a", "", ""⟩], harnesses := [] }
        "/tmp/a" =
      .ok { registries := [⟨"a742347c83bf", "", "local", "/tmp/a", "", ""⟩], harnesses := [] } ∧
    ([⟨"a742347c83bf", "", "local", "/tmp/a", "", ""⟩] : List Registry).length = 1 := by
  have h : AddRegistry witOs { registries := [], harnesses := [] } "/tmp/a" =
      .ok { registries := [⟨"a742347c83bf", "", "local", "/tmp/a", "", ""⟩], harnesses := [] } :=
    rfl
  have h2 := C3_addRegistry_duplicate_noop witOs _ _ _ h
  exact ⟨h, h2.1, h2.2 rfl⟩

/-! ## Legacy schema migration (C8) -/

theorem applyTypeRules_local (os : Os) (n : Registry) (e : String)
    (hty : n.type = "local") (hE : ExpandPath os n.source = .ok e) :
    applyTypeRules os n = .ok { n with source := e, ref := "" } := by
  unfold applyTypeRules
  rw [if_pos hty, hE]

theorem normalizeRegistry_local (os : Os) (r n2 : Registry) (e : String)
    (hn2 : inferType os (normalizeFields r) = n2)
    (hty : n2.type = "local") (hsrc : ¬n2.source = "")
    (hE : ExpandPath os n2.source = .ok e) :
    normalizeRegistry os r = .ok (assignID (cleanSubdir { n2 with source := e, ref := "" })) := by
  simp only [normalizeRegistry, hn2]
  rw [if_neg hsrc, applyTypeRules_local os n2 e hty hE]

set_option maxRecDepth 100000 in
theorem ExpandPath_tmp_a (os : Os) : ExpandPath os "/tmp/a" = .ok "/tmp/a" := rfl

set_option maxRecDepth 100000 in
/-- The fresh `/tmp/a` local registry record normalizes to the concrete
hashed entry, in every environment. -/
theorem normalizeRegistry_tmp_a (os : Os) :
    normalizeRegistry os ⟨"", "", "local", "/tmp/a", "", ""⟩ =
      .ok ⟨"a742347c83bf", "", "local", "/tmp/a", "", ""⟩ := by
  have h := normalizeRegistry_local os ⟨"", "", "local", "/tmp/a", "", ""⟩
    ⟨"", "", "local", "/tmp/a", "", ""⟩ "/tmp/a"
    (by unfold inferType; rw [if_neg (by decide)]; rfl) (by decide) (by decide)
    (ExpandPath_tmp_a os)
  rw [h]
  rfl

set_option maxRecDepth 100000 in
/-- Re-normalizing the hashed `/tmp/a` entry is the identity, in every
environment (the non-empty id is kept). -/
theorem normalizeRegistry_tmp_a_again (os : Os) :
    normalizeRegistry os ⟨"a742347c83bf", "", "local", "/tmp/a", "", ""⟩ =
      .ok ⟨"a742347c83bf", "", "local", "/tmp/a", "", ""⟩ := by
  have h := normalizeRegistry_local os ⟨"a742347c83bf", "", "local", "/tmp/a", "", ""⟩
    ⟨"a742347c83bf", "", "local", "/tmp/a", "", ""⟩ "/tmp/a"
    (by unfold inferType; rw [if_neg (by decide)]; rfl) (by decide) (by decide)
    (ExpandPath_tmp_a os)
  rw [h]
  rfl

set_option maxRecDepth 100000 in
theorem AddLocalRegistry_tmp_a (os : Os) :
    AddLocalRegistry os { registries := [], harnesses := [] } "/tmp/a" =
      .ok { registries := [⟨"a742347c83bf", "", "local", "/tmp/a", "", ""⟩],
            harnesses := [] } := by
  simp only [AddLocalRegistry, ExpandPath_tmp_a os, normalizeRegistry_tmp_a os]
  rfl

set_option maxRecDepth 100000 in
/-- C8: when the current-schema decode fails and the legacy decode succeeds,
`Load` migrates the legacy document; in particular a legacy document with
`registries = ["/tmp/a"]` loads into exactly one registry, of type `local`,
whose source is the normalized absolute form of `/tmp/a` (which `ExpandPath`
maps to `/tmp/a` itself, for every environment). -/
theorem C8_legacy_migration (os : Os) (e2 : String) :
    (∀ d : LegacyConfigV1, Load os (.error e2) (.ok d) = .ok (loadLegacyV1Decoded os d)) ∧
    Load os (.error e2) (.ok { registries := ["/tmp/a"], harnesses := [] }) =
      .ok { registries := [⟨"a742347c83bf", "", "local", "/tmp/a", "", ""⟩], harnesses := [] } ∧
    ExpandPath os "/tmp/a" = .ok "/tmp/a" := by
  refine ⟨fun d => rfl, ?_, ExpandPath_tmp_a os⟩
  show Except.ok (loadLegacyV1Decoded os { registries := ["/tmp/a"], harnesses := [] }) = _
  unfold loadLegacyV1Decoded
  rw [show normalizePaths os ([] : List String) = [] from rfl]
  simp only [List.foldl_cons, List.foldl_nil]
  rw [AddLocalRegistry_tmp_a os]
  show Except.ok
      ({ registries := dedupeRegistries os [⟨"a742347c83bf", "", "local", "/tmp/a", "", ""⟩],
         harnesses := [] } : Config) = _
  simp only [dedupeRegistries, dedupeLoop, normalizeRegistry_tmp_a_again os]
  rfl

set_option maxRecDepth 100000 in
/-- Witness for C8: the legacy document with `registries = ["/tmp/a"]`
migrates under the concrete oracle `witOs` into the single hashed `local`
registry. -/
theorem C8_legacy_migration_witness :
    Load witOs (.error "bad json") (.ok { registries := ["/tmp/a"], harnesses := [] }) =
      .ok { registries := [⟨"a742347c83bf", "", "local", "/tmp/a", "", ""⟩],
            harnesses := [] } :=
  (C8_legacy_migration witOs "bad json").2.1

/-! ## Filesystem model

A rooted tree of nodes stands for the on-disk state.  Paths are lists of
path components.  Regular files carry content bytes, permission bits and a
modification time (an abstract `Nat`; the modelled clock is the constant 0,
overwritten by explicit `Chtimes` calls).  Directory entry lists are kept in
creation order; `WalkDir`'s lexical visiting order is irrelevant to every
property proved here (all are order-independent), so walks process entries
in list order.  Symbolic links hold their target verbatim and are never
resolved: `os.Stat` reaching a symlink reports not-found (the dangling-link
model described in the header).  `other` stands for any remaining node kind
(device files, sockets, ...). -/

inductive FsNode where
  | file (content : List Nat) (perm : Nat) (mtime : Nat)
  | dir (entries : List (String × FsNode)) (perm : Nat)
  | symlink (target : String)
  | other
deriving Repr

/-- First entry named `s`, as directory lookup. -/
def findEntry : List (String × FsNode) → String → Option FsNode
  | [], _ => none
  | (n, c) :: rest, s => if n = s then some c else findEntry rest s

/-- Replace the first entry named `s` (or append when absent). -/
def setEntry : List (String × FsNode) → String → FsNode → List (String × FsNode)
  | [], s, v => [(s, v)]
  | (n, c) :: rest, s, v =>
    if n = s then (s, v) :: rest else (n, c) :: setEntry rest s v

/-- Drop every entry named `s`. -/
def removeEntry : List (String × FsNode) → String → List (String × FsNode)
  | [], _ => []
  | (n, c) :: rest, s =>
    if n = s then removeEntry rest s else (n, c) :: removeEntry rest s

/-- Node at a path: traverses directories only (an `lstat`-style lookup —
the final node is returned as-is, links unresolved). -/
def getNode : FsNode → List String → Option FsNode
  | n, [] => some n
  | FsNode.dir es _, s :: rest =>
    match findEntry es s with
    | some c => getNode c rest
    | none => none
  | _, _ :: _ => none

/-- Write a node at a path: every ancestor must exist as a directory; the
final entry is replaced in place or appended. -/
def putNode : FsNode → List String → FsNode → Option FsNode
  | _, [], v => some v
  | FsNode.dir es p, s :: rest, v =>
    (match findEntry es s with
     | some c =>
       match putNode c rest v with
       | some c2 => some (FsNode.dir (setEntry es s c2) p)
       | none => none
     | none =>
       match rest with
       | [] => some (FsNode.dir (es ++ [(s, v)]) p)
       | _ :: _ => none)
  | _, _ :: _, _ => none

/-- Model of `os.RemoveAll`: delete the tree at a path; a missing path is a
no-op (`RemoveAll` returns nil for it). -/
def delNode : FsNode → List String → FsNode
  | n, [] => n
  | FsNode.dir es p, [s] => FsNode.dir (removeEntry es s) p
  | FsNode.dir es p, s :: t :: rest =>
    (match findEntry es s with
     | some c => FsNode.dir (setEntry es s (delNode c (t :: rest))) p
     | none => FsNode.dir es p)
  | n, _ => n

/-- Model of `os.Stat` returning the node: directory traversal, with a
symlink at the target reporting not-found (dangling-link model). -/
def statF (fs : FsNode) (path : List String) : Option FsNode :=
  match getNode fs path with
  | some (FsNode.symlink _) => none
  | r => r

/-- `FileInfo.IsDir` of a stat result. -/
def isDirNode : FsNode → Bool
  | FsNode.dir _ _ => true
  | _ => false

/-- The `exists` helper of internal/install: `os.Stat` succeeds. -/
def existsF (fs : FsNode) (path : List String) : Bool :=
  (statF fs path).isSome

/-- Model of `os.MkdirAll`: create missing directories along the path with
`perm`, leaving existing directories untouched; any non-directory on the way
is an error. -/
def mkdirAll : FsNode → List String → Nat → Option FsNode
  | n, [], _ => if isDirNode n then some n else none
  | FsNode.dir es p, s :: rest, perm =>
    (match findEntry es s with
     | some c =>
       match mkdirAll c rest perm with
       | some c2 => some (FsNode.dir (setEntry es s c2) p)
       | none => none
     | none =>
       match mkdirAll (FsNode.dir [] perm) rest perm with
       | some sub => some (FsNode.dir (es ++ [(s, sub)]) p)
       | none => none)
  | _, _ :: _, _ => none

/-- Model of `os.Chmod` (follows links: a symlink target is an error in the
dangling-link model; permission bits of `other` nodes are not tracked). -/
def chmod (fs : FsNode) (path : List String) (perm : Nat) : Option FsNode :=
  match getNode fs path with
  | some (FsNode.file c _ mt) => putNode fs path (FsNode.file c perm mt)
  | some (FsNode.dir es _) => putNode fs path (FsNode.dir es perm)
  | some (FsNode.symlink _) => none
  | some FsNode.other => some fs
  | none => none

/-- Model of `os.Chtimes` as used by the copy engine (on regular files). -/
def chtimes (fs : FsNode) (path : List String) (mt : Nat) : Option FsNode :=
  match getNode fs path with
  | some (FsNode.file c p _) => putNode fs path (FsNode.file c p mt)
  | some (FsNode.dir _ _) => some fs
  | some (FsNode.symlink _) => none
  | some FsNode.other => some fs
  | none => none

/-- Model of `os.OpenFile(dst, O_CREATE|O_WRONLY|O_TRUNC, perm)` plus the
`io.Copy`: a fresh file is created with `perm` (umask not modelled) at clock
value 0; an existing regular file is truncated and rewritten keeping its
permission bits; any other existing node is an error. -/
def writeFile (fs : FsNode) (path : List String) (content : List Nat) (perm : Nat) :
    Option FsNode :=
  match getNode fs path with
  | none => putNode fs path (FsNode.file content perm 0)
  | some (FsNode.file _ oldPerm _) => putNode fs path (FsNode.file content oldPerm 0)
  | some _ => none

/-- Model of the copy engine's symlink branch: `os.Symlink`, and on
`ErrExist` an `os.Remove` (which fails on a non-empty directory) followed by
a retry. -/
def symlinkForce (fs : FsNode) (path : List String) (target : String) : Option FsNode :=
  match getNode fs path with
  | none => putNode fs path (FsNode.symlink target)
  | some (FsNode.dir es _) =>
    if es.isEmpty then putNode (delNode fs path) path (FsNode.symlink target) else none
  | some _ => putNode (delNode fs path) path (FsNode.symlink target)

/-! ## InstallEngine: uninstall (C2) -/

/-- Model of `UninstallSkill` (internal/install): stat the target, require a
directory, require a non-directory `SKILL.md` marker directly inside, then
remove the tree.  The returned pair carries the error outcome and the
(possibly unchanged) filesystem. -/
def UninstallSkill (fs : FsNode) (harnessPath : List String) (skillName : String) :
    Except String Unit × FsNode :=
  let targetPath := harnessPath ++ [skillName]
  match statF fs targetPath with
  | none => (.error "stat target", fs)
  | some info =>
    if ¬isDirNode info then (.error "target path is not a directory", fs)
    else
      match statF fs (targetPath ++ ["SKILL.md"]) with
      | none => (.error "target is not a valid installed skill", fs)
      | some markerInfo =>
        if isDirNode markerInfo then (.error "invalid skill marker", fs)
        else (.ok (), delNode fs targetPath)

theorem findEntry_removeEntry (es : List (String × FsNode)) (s : String) :
    findEntry (removeEntry es s) s = none := by
  induction es with
  | nil => rfl
  | cons e rest ih =>
    obtain ⟨n, c⟩ := e
    by_cases hn : n = s
    · simpa [removeEntry, hn] using ih
    · simpa [removeEntry, findEntry, hn] using ih

theorem delNode_cons_cons (es : List (String × FsNode)) (p : Nat) (a : String)
    (rest : List String) (hne : rest ≠ []) :
    delNode (FsNode.dir es p) (a :: rest) =
      (match findEntry es a with
       | some c => FsNode.dir (setEntry es a (delNode c rest)) p
       | none => FsNode.dir es p) := by
  cases rest with
  | nil => exact absurd rfl hne
  | cons t r => rfl

theorem findEntry_setEntry_found (es : List (String × FsNode)) (s : String)
    (c v : FsNode) (h : findEntry es s = some c) :
    findEntry (setEntry es s v) s = some v := by
  induction es with
  | nil => cases h
  | cons e rest ih =>
    obtain ⟨n, c0⟩ := e
    by_cases hn : n = s
    · simp [setEntry, findEntry, hn]
    · simp only [findEntry, hn, if_false] at h
      simp [setEntry, findEntry, hn, ih h]

theorem getNode_delNode_append (pre : List String) (fs : FsNode) (s : String) (x : FsNode)
    (h : getNode fs (pre ++ [s]) = some x) :
    getNode (delNode fs (pre ++ [s])) (pre ++ [s]) = none := by
  induction pre generalizing fs with
  | nil =>
    cases fs with
    | dir es p =>
      simp only [List.nil_append, delNode, getNode]
      rw [findEntry_removeEntry]
    | file c pm mt => cases h
    | symlink t => cases h
    | other => cases h
  | cons a pre ih =>
    cases fs with
    | dir es p =>
      simp only [List.cons_append] at h ⊢
      rcases hfind : findEntry es a with _ | c
      · simp only [getNode, hfind] at h
        cases h
      · have h2 : getNode c (pre ++ [s]) = some x := by
          simp only [getNode, hfind] at h
          exact h
        rw [delNode_cons_cons es p a (pre ++ [s]) (by simp), hfind]
        simp only [getNode]
        rw [findEntry_setEntry_found es a c _ hfind]
        exact ih c h2
    | file c pm mt => cases h
    | symlink t => cases h
    | other => cases h

theorem statF_getNode (fs : FsNode) (p : List String) (x : FsNode)
    (h : statF fs p = some x) : getNode fs p = some x := by
  unfold statF at h
  rcases hg : getNode fs p with _ | n
  · rw [hg] at h; cases h
  · rw [hg] at h
    cases n <;> simp_all

theorem uninstall_error_leaf (u : Except String Unit × FsNode) (e : String) (fs : FsNode)
    (h : u = (.error e, fs)) : (∃ e2, u.1 = .error e2) ∧ u.2 = fs := by
  subst h
  exact ⟨⟨e, rfl⟩, rfl⟩

/-- C2: `UninstallSkill` fails — leaving the filesystem unchanged — unless
the target `harness/skill` is an existing directory with a non-directory
`SKILL.md` directly inside it; with the marker present it removes the whole
target tree.  The marker gate runs on every call. -/
theorem C2_uninstall_marker_gate (fs : FsNode) (h : List String) (s : String) :
    ((¬ ∃ es p, statF fs (h ++ [s]) = some (.dir es p) ∧
        ∃ m, statF fs (h ++ [s] ++ ["SKILL.md"]) = some m ∧ isDirNode m = false) →
      (∃ e, (UninstallSkill fs h s).1 = .error e) ∧ (UninstallSkill fs h s).2 = fs) ∧
    (∀ es p m, statF fs (h ++ [s]) = some (.dir es p) →
      statF fs (h ++ [s] ++ ["SKILL.md"]) = some m → isDirNode m = false →
      UninstallSkill fs h s = (.ok (), delNode fs (h ++ [s])) ∧
      getNode (delNode fs (h ++ [s])) (h ++ [s]) = none) := by
  constructor
  · intro hno
    rcases hstat : statF fs (h ++ [s]) with _ | info
    · exact uninstall_error_leaf _ "stat target" fs (by simp [UninstallSkill, hstat])
    · cases info with
      | dir es p =>
        rcases hm : statF fs (h ++ [s] ++ ["SKILL.md"]) with _ | mi
        · have hm2 : statF fs (h ++ [s, "SKILL.md"]) = none := by simpa using hm
          exact uninstall_error_leaf _ "target is not a valid installed skill" fs
            (by simp [UninstallSkill, hstat, hm2, isDirNode])
        · rcases hdir : isDirNode mi with _ | _
          · exact absurd ⟨es, p, hstat, mi, hm, hdir⟩ hno
          · have hm2 : statF fs (h ++ [s, "SKILL.md"]) = some mi := by simpa using hm
            exact uninstall_error_leaf _ "invalid skill marker" fs
              (by simp [UninstallSkill, hstat, hm2, isDirNode]; exact hdir)
      | file c pm mt =>
        exact uninstall_error_leaf _ "target path is not a directory" fs
          (by simp [UninstallSkill, hstat, isDirNode])
      | symlink t =>
        exact uninstall_error_leaf _ "target path is not a directory" fs
          (by simp [UninstallSkill, hstat, isDirNode])
      | other =>
        exact uninstall_error_leaf _ "target path is not a directory" fs
          (by simp [UninstallSkill, hstat, isDirNode])
  · intro es p m hstat hm hdir
    refine ⟨?_, getNode_delNode_append h fs s _ (statF_getNode fs (h ++ [s]) _ hstat)⟩
    have hm2 : statF fs (h ++ [s, "SKILL.md"]) = some m := by simpa using hm
    simp [UninstallSkill, hstat, hm2, isDirNode]
    exact hdir

/-- Witness for C2: removing skill `alpha` from a harness whose `alpha`
directory carries a valid `SKILL.md` marker deletes the tree. -/
theorem C2_uninstall_marker_gate_witness :
    UninstallSkill
        (FsNode.dir [("h", FsNode.dir
          [("alpha", FsNode.dir [("SKILL.md", FsNode.file [104] 420 0)] 493)] 493)] 493)
        ["h"] "alpha" =
      (.ok (), FsNode.dir [("h", FsNode.dir [] 493)] 493) ∧
    getNode (FsNode.dir [("h", FsNode.dir [] 493)] 493) ["h", "alpha"] = none := by
  have h := (C2_uninstall_marker_gate
    (FsNode.dir [("h", FsNode.dir
      [("alpha", FsNode.dir [("SKILL.md", FsNode.file [104] 420 0)] 493)] 493)] 493)
    ["h"] "alpha").2 [("SKILL.md", FsNode.file [104] 420 0)] 493
    (FsNode.file [104] 420 0) rfl rfl rfl
  exact ⟨h.1, h.2⟩

/-! ## ScanEngine (internal/scan): C4, C5 -/

/-- A discovered skill: folder basename, absolute path, discovery root. -/
structure Skill where
  Name : String
  Path : List String
  Parent : List String
deriving Repr, DecidableEq

/-- Model of `hasSkillMarker` on a directory with entries `es`: `os.Stat` of
the `SKILL.md` entry must succeed and report a non-directory.  A missing
entry is not a skill (not an error); a directory marker is not a skill; a
symlink marker stats as not-found in the dangling-link model. -/
def hasSkillMarkerDir (es : List (String × FsNode)) : Bool :=
  match findEntry es "SKILL.md" with
  | some (FsNode.file _ _ _) => true
  | some FsNode.other => true
  | _ => false

mutual

/-- Walk step of `ScanRegistry` for the entry `name` of the directory at
`path`: symbolic links are skipped without following; non-directories are
skipped; a directory with a valid marker is recorded and pruned
(`filepath.SkipDir`); otherwise the walk descends. -/
def scanNode (root path : List String) (name : String) : FsNode → List Skill
  | FsNode.dir es _ =>
    if hasSkillMarkerDir es then [⟨name, path ++ [name], root⟩]
    else scanEntries root (path ++ [name]) es
  | _ => []

/-- Walk of `ScanRegistry` over a directory's entries (the visiting order
does not affect any property proved below). -/
def scanEntries (root path : List String) : List (String × FsNode) → List Skill
  | [] => []
  | (n, c) :: rest => scanNode root path n c ++ scanEntries root path rest

end

/-- Joined string form of a path, used to model Go's comparison of the
`/`-joined `Path` strings in the final sort. -/
def pathStr (p : List String) : String := joinWith "/" p

/-- The `sort.Slice` comparator of `ScanRegistry`: by name, then path. -/
def skillLess (a b : Skill) : Bool :=
  if a.Name = b.Name then strLtB (pathStr a.Path) (pathStr b.Path)
  else strLtB a.Name b.Name

/-- Model of `ScanRegistry` (internal/scan): stat the root, require a
directory, walk recursively (the root itself is skipped before the marker
check), sort the result by `(name, path)`. -/
def ScanRegistry (fs : FsNode) (registryPath : List String) : Except String (List Skill) :=
  match statF fs registryPath with
  | none => .error "stat registry"
  | some (FsNode.dir es _) =>
    .ok (sortByLess skillLess (scanEntries registryPath registryPath es))
  | some _ => .error "registry path is not a directory"

theorem mem_insertByLess (less : α → α → Bool) (a x : α) (l : List α) :
    x ∈ insertByLess less a l ↔ x = a ∨ x ∈ l := by
  induction l with
  | nil => simp [insertByLess]
  | cons b r ih =>
    unfold insertByLess
    split
    · simp
    · simp only [List.mem_cons, ih]
      tauto

theorem mem_sortByLess (less : α → α → Bool) (x : α) (l : List α) :
    x ∈ sortByLess less l ↔ x ∈ l := by
  induction l with
  | nil => simp [sortByLess]
  | cons b r ih =>
    simp only [sortByLess, List.foldr] at ih ⊢
    rw [mem_insertByLess, ih, List.mem_cons]

theorem countP_insertByLess (less : α → α → Bool) (p : α → Bool) (a : α) (l : List α) :
    List.countP p (insertByLess less a l) = List.countP p (a :: l) := by
  induction l with
  | nil => rfl
  | cons b r ih =>
    unfold insertByLess
    split
    · rfl
    · simp only [List.countP_cons] at ih ⊢
      omega

theorem countP_sortByLess (less : α → α → Bool) (p : α → Bool) (l : List α) :
    List.countP p (sortByLess less l) = List.countP p l := by
  induction l with
  | nil => rfl
  | cons b r ih =>
    simp only [sortByLess, List.foldr] at ih ⊢
    rw [countP_insertByLess, List.countP_cons, List.countP_cons, ih]

theorem mem_scanEntries (root path : List String) (es : List (String × FsNode)) (sk : Skill) :
    sk ∈ scanEntries root path es ↔ ∃ e ∈ es, sk ∈ scanNode root path e.1 e.2 := by
  induction es with
  | nil => simp [scanEntries]
  | cons e rest ih =>
    obtain ⟨n, c⟩ := e
    simp only [scanEntries, List.mem_append, ih, List.mem_cons]
    constructor
    · rintro (h | ⟨e2, he2, hsk⟩)
      · exact ⟨(n, c), Or.inl rfl, h⟩
      · exact ⟨e2, Or.inr he2, hsk⟩
    · rintro ⟨e2, he2 | he2, hsk⟩
      · subst he2; exact Or.inl hsk
      · exact Or.inr ⟨e2, he2, hsk⟩

/-- Every skill produced for entry `name` has a path strictly below
`path ++ [name]` (bounded-size strong induction over the node). -/
theorem scan_paths_aux (k : Nat) :
    ∀ (node : FsNode), sizeOf node ≤ k → ∀ (root path : List String) (name : String),
      ∀ sk ∈ scanNode root path name node, ∃ rest, sk.Path = path ++ name :: rest := by
  induction k with
  | zero =>
    intro node hsz
    exact absurd hsz (by cases node <;> simp)
  | succ k ih =>
    intro node hsz root path name sk hsk
    cases node with
    | dir es p =>
      simp only [scanNode] at hsk
      split at hsk
      · rw [List.mem_singleton] at hsk
        subst hsk
        exact ⟨[], by simp⟩
      · have hes : sizeOf es ≤ k := by
          have := FsNode.dir.sizeOf_spec es p
          omega
        have inner : ∀ (es2 : List (String × FsNode)), sizeOf es2 ≤ k →
            ∀ (path2 : List String), ∀ sk2 ∈ scanEntries root path2 es2,
              ∃ n2 rest2, sk2.Path = path2 ++ n2 :: rest2 := by
          intro es2
          induction es2 with
          | nil => intro _ path2 sk2 hsk2; simp [scanEntries] at hsk2
          | cons e rest ihe =>
            intro hsz2 path2 sk2 hsk2
            obtain ⟨n2, c2⟩ := e
            have hszc : sizeOf c2 ≤ k := by
              have h1 := List.cons.sizeOf_spec (n2, c2) rest
              have h2 := Prod.mk.sizeOf_spec n2 c2
              omega
            have hszr : sizeOf rest ≤ k := by
              have h1 := List.cons.sizeOf_spec (n2, c2) rest
              omega
            simp only [scanEntries, List.mem_append] at hsk2
            rcases hsk2 with h1 | h2
            · obtain ⟨rest3, hr⟩ := ih c2 hszc root path2 n2 sk2 h1
              exact ⟨n2, rest3, hr⟩
            · exact ihe hszr path2 sk2 h2
        obtain ⟨n2, rest2, hr⟩ := inner es hes (path ++ [name]) sk hsk
        refine ⟨n2 :: rest2, ?_⟩
        rw [hr, List.append_assoc]
        rfl
    | file c pm mt => simp [scanNode] at hsk
    | symlink t => simp [scanNode] at hsk
    | other => simp [scanNode] at hsk

theorem scanNode_path (node : FsNode) (root path : List String) (name : String) :
    ∀ sk ∈ scanNode root path name node, ∃ rest, sk.Path = path ++ name :: rest :=
  scan_paths_aux (sizeOf node) node (Nat.le_refl _) root path name

/-- With duplicate-free entry names, an entry's node is determined by its
name. -/
theorem nodup_keys_eq (l : List (String × FsNode)) (hnd : (l.map Prod.fst).Nodup)
    (a : String) (b c : FsNode) (hb : (a, b) ∈ l) (hc : (a, c) ∈ l) : b = c := by
  induction l with
  | nil => cases hb
  | cons e rest ih =>
    rw [List.map_cons, List.nodup_cons] at hnd
    rcases List.mem_cons.mp hb with hb1 | hb1
    · rcases List.mem_cons.mp hc with hc1 | hc1
      · have hbc := hb1.trans hc1.symm
        exact ((Prod.mk.injEq _ _ _ _).mp hbc).2
      · exfalso
        have ha : a ∈ List.map Prod.fst rest := List.mem_map_of_mem Prod.fst hc1
        have he : e.1 = a := by rw [← hb1]
        exact hnd.1 (he ▸ ha)
    · rcases List.mem_cons.mp hc with hc1 | hc1
      · exfalso
        have ha : a ∈ List.map Prod.fst rest := List.mem_map_of_mem Prod.fst hb1
        have he : e.1 = a := by rw [← hc1]
        exact hnd.1 (he ▸ ha)
      · exact ih hnd.2 hb1 hc1

theorem scanEntries_append (root path : List String) (l1 l2 : List (String × FsNode)) :
    scanEntries root path (l1 ++ l2) = scanEntries root path l1 ++ scanEntries root path l2 := by
  induction l1 with
  | nil => rfl
  | cons e rest ih =>
    obtain ⟨n, c⟩ := e
    simp only [List.cons_append, scanEntries, List.append_eq]
    rw [ih, List.append_assoc]

theorem countP_scanEntries_zero (root : List String) (dname : String)
    (l : List (String × FsNode)) (h : ∀ e ∈ l, e.1 ≠ dname) :
    List.countP (fun sk => (root ++ [dname]).isPrefixOf sk.Path)
      (scanEntries root root l) = 0 := by
  rw [List.countP_eq_zero]
  intro sk hsk hp
  rw [mem_scanEntries] at hsk
  obtain ⟨e, he, hsknode⟩ := hsk
  obtain ⟨rest, hpath⟩ := scanNode_path e.2 root root e.1 sk hsknode
  rw [hpath, List.isPrefixOf_iff_prefix, List.prefix_append_right_inj] at hp
  exact h e he (List.cons_prefix_cons.mp hp).1.symm

/-- C5: `ScanRegistry` neither follows nor reports a symlinked entry
(whatever it points at — targets are never resolved): no reported skill lies
at or below the symlink's path. -/
theorem C5_scan_never_follows_symlinks (fs : FsNode) (root : List String)
    (res : List (String × FsNode)) (rp : Nat)
    (hroot : statF fs root = some (.dir res rp))
    (hnodup : (res.map Prod.fst).Nodup)
    (lname tgt : String) (hmem : (lname, FsNode.symlink tgt) ∈ res) :
    ∃ skills, ScanRegistry fs root = .ok skills ∧
      ∀ sk ∈ skills, ¬((root ++ [lname]) <+: sk.Path) := by
  refine ⟨sortByLess skillLess (scanEntries root root res), by simp [ScanRegistry, hroot], ?_⟩
  intro sk hsk hpre
  rw [mem_sortByLess, mem_scanEntries] at hsk
  obtain ⟨⟨n, c⟩, he, hsknode⟩ := hsk
  obtain ⟨rest, hpath⟩ := scanNode_path c root root n sk hsknode
  rw [hpath, List.prefix_append_right_inj] at hpre
  have heq : lname = n := (List.cons_prefix_cons.mp hpre).1
  subst heq
  have hc : FsNode.symlink tgt = c := nodup_keys_eq res hnodup lname _ _ hmem he
  rw [← hc] at hsknode
  simp [scanNode] at hsknode

/-- Witness for C5: a registry whose root holds a symlink named `link`
(pointing at a skill folder elsewhere) and a real skill `beta`; the scan
reports only `beta` and nothing at or below `link`. -/
theorem C5_scan_never_follows_symlinks_witness :
    ∃ skills,
      ScanRegistry
          (FsNode.dir [("r", FsNode.dir
            [("beta", FsNode.dir [("SKILL.md", FsNode.file [] 420 0)] 493),
             ("link", FsNode.symlink "/elsewhere/skill")] 493)] 493)
          ["r"] = .ok skills ∧
      ∀ sk ∈ skills, ¬((["r", "link"] : List String) <+: sk.Path) := by
  have h := C5_scan_never_follows_symlinks
    (FsNode.dir [("r", FsNode.dir
      [("beta", FsNode.dir [("SKILL.md", FsNode.file [] 420 0)] 493),
       ("link", FsNode.symlink "/elsewhere/skill")] 493)] 493)
    ["r"]
    [("beta", FsNode.dir [("SKILL.md", FsNode.file [] 420 0)] 493),
     ("link", FsNode.symlink "/elsewhere/skill")] 493
    rfl (by decide) "link" "/elsewhere/skill" (List.Mem.tail _ (List.Mem.head _))
  exact h

/-- C4: a marker-bearing directory directly under the registry root is
reported and pruned: even when it contains a nested marker-bearing
subdirectory, exactly one skill — the outer directory — is reported for that
subtree. -/
theorem C4_scan_prunes_nested (fs : FsNode) (root : List String)
    (res : List (String × FsNode)) (rp : Nat)
    (hroot : statF fs root = some (.dir res rp))
    (hnodup : (res.map Prod.fst).Nodup)
    (dname : String) (des : List (String × FsNode)) (dp : Nat)
    (hmem : (dname, FsNode.dir des dp) ∈ res)
    (hmark : hasSkillMarkerDir des = true)
    (nname : String) (ndes : List (String × FsNode)) (np : Nat)
    (hnested : (nname, FsNode.dir ndes np) ∈ des)
    (hnmark : hasSkillMarkerDir ndes = true) :
    ∃ skills, ScanRegistry fs root = .ok skills ∧
      (⟨dname, root ++ [dname], root⟩ : Skill) ∈ skills ∧
      (∀ sk ∈ skills, (root ++ [dname]) <+: sk.Path →
        sk = ⟨dname, root ++ [dname], root⟩) ∧
      skills.countP (fun sk => (root ++ [dname]).isPrefixOf sk.Path) = 1 := by
  refine ⟨sortByLess skillLess (scanEntries root root res),
    by simp [ScanRegistry, hroot], ?_, ?_, ?_⟩
  · rw [mem_sortByLess, mem_scanEntries]
    exact ⟨(dname, .dir des dp), hmem, by simp [scanNode, hmark]⟩
  · intro sk hsk hpre
    rw [mem_sortByLess, mem_scanEntries] at hsk
    obtain ⟨⟨n, c⟩, he, hsknode⟩ := hsk
    obtain ⟨rest, hpath⟩ := scanNode_path c root root n sk hsknode
    rw [hpath, List.prefix_append_right_inj] at hpre
    have heq : dname = n := (List.cons_prefix_cons.mp hpre).1
    subst heq
    have hc : FsNode.dir des dp = c := nodup_keys_eq res hnodup dname _ _ hmem he
    rw [← hc] at hsknode
    simp only [scanNode, hmark, if_pos] at hsknode
    rw [List.mem_singleton] at hsknode
    exact hsknode
  · rw [countP_sortByLess]
    obtain ⟨l1, l2, hsplit⟩ := List.append_of_mem hmem
    subst hsplit
    rw [List.map_append, List.map_cons] at hnodup
    have hmid := List.nodup_middle.mp hnodup
    have hnotin := (List.nodup_cons.mp hmid).1
    rw [List.mem_append] at hnotin
    have h1 : ∀ e ∈ l1, e.1 ≠ dname := by
      intro e he h
      have hm : e.1 ∈ List.map Prod.fst l1 := List.mem_map_of_mem Prod.fst he
      rw [h] at hm
      exact hnotin (Or.inl hm)
    have h2 : ∀ e ∈ l2, e.1 ≠ dname := by
      intro e he h
      have hm : e.1 ∈ List.map Prod.fst l2 := List.mem_map_of_mem Prod.fst he
      rw [h] at hm
      exact hnotin (Or.inr hm)
    rw [scanEntries_append, List.countP_append]
    rw [countP_scanEntries_zero root dname l1 h1]
    have hmark1 : List.countP (fun sk => (root ++ [dname]).isPrefixOf sk.Path)
        (scanNode root root dname (FsNode.dir des dp)) = 1 := by
      simp only [scanNode, hmark, if_pos]
      simp [List.countP_cons, List.isPrefixOf_iff_prefix]
    simp only [scanEntries, List.countP_append]
    rw [hmark1, countP_scanEntries_zero root dname l2 h2]

/-- Witness for C4: a registry root with an `outer` skill holding a nested
`inner` skill; exactly the outer skill is reported for that subtree. -/
theorem C4_scan_prunes_nested_witness :
    ∃ skills,
      ScanRegistry
          (FsNode.dir [("r", FsNode.dir
            [("outer", FsNode.dir
              [("SKILL.md", FsNode.file [] 420 0),
               ("inner", FsNode.dir [("SKILL.md", FsNode.file [] 420 0)] 493)] 493)] 493)] 493)
          ["r"] = .ok skills ∧
      (⟨"outer", ["r", "outer"], ["r"]⟩ : Skill) ∈ skills ∧
      skills.countP (fun sk => (["r", "outer"] : List String).isPrefixOf sk.Path) = 1 := by
  obtain ⟨skills, hscan, hmem, _, hcount⟩ := C4_scan_prunes_nested
    (FsNode.dir [("r", FsNode.dir
      [("outer", FsNode.dir
        [("SKILL.md", FsNode.file [] 420 0),
         ("inner", FsNode.dir [("SKILL.md", FsNode.file [] 420 0)] 493)] 493)] 493)] 493)
    ["r"]
    [("outer", FsNode.dir
      [("SKILL.md", FsNode.file [] 420 0),
       ("inner", FsNode.dir [("SKILL.md", FsNode.file [] 420 0)] 493)] 493)] 493
    rfl (by decide) "outer"
    [("SKILL.md", FsNode.file [] 420 0),
     ("inner", FsNode.dir [("SKILL.md", FsNode.file [] 420 0)] 493)] 493
    (List.Mem.head _) rfl
    "inner" [("SKILL.md", FsNode.file [] 420 0)] 493
    (List.Mem.tail _ (List.Mem.head _)) rfl
  exact ⟨skills, hscan, hmem, hcount⟩

/-! ## CopyEngine toolkit: getNode / putNode algebra -/

theorem findEntry_setEntry_other (es : List (String × FsNode)) (s b : String) (v : FsNode)
    (h : s ≠ b) : findEntry (setEntry es s v) b = findEntry es b := by
  induction es with
  | nil => simp [setEntry, findEntry, h]
  | cons e rest ih =>
    obtain ⟨n, c⟩ := e
    by_cases hn : n = s
    · subst hn
      simp [setEntry, findEntry, h]
    · simp [setEntry, findEntry, hn, ih]

theorem findEntry_append_single (es : List (String × FsNode)) (a b : String) (v : FsNode)
    (h : a ≠ b) : findEntry (es ++ [(a, v)]) b = findEntry es b := by
  induction es with
  | nil => simp [findEntry, h]
  | cons e rest ih =>
    obtain ⟨n, c⟩ := e
    by_cases hn : n = b
    · simp [findEntry, hn]
    · simp [findEntry, hn, ih]

theorem findEntry_append_self (es : List (String × FsNode)) (a : String) (v : FsNode)
    (h : findEntry es a = none) : findEntry (es ++ [(a, v)]) a = some v := by
  induction es with
  | nil => simp [findEntry]
  | cons e rest ih =>
    obtain ⟨n, c⟩ := e
    by_cases hn : n = a
    · simp only [findEntry, hn, if_pos] at h
      cases h
    · simp only [findEntry, hn, if_false] at h
      simp only [List.cons_append, findEntry, hn, if_false]
      exact ih h

theorem setEntry_append_self (es : List (String × FsNode)) (a : String) (v b : FsNode)
    (h : findEntry es a = none) : setEntry (es ++ [(a, v)]) a b = es ++ [(a, b)] := by
  induction es with
  | nil => simp [setEntry]
  | cons e rest ih =>
    obtain ⟨n, c⟩ := e
    by_cases hn : n = a
    · simp only [findEntry, hn, if_pos] at h
      cases h
    · simp only [findEntry, hn, if_false] at h
      simp only [List.cons_append, setEntry, hn, if_false, List.append_eq]
      rw [ih h]

theorem setEntry_setEntry (es : List (String × FsNode)) (x : String) (c2 c3 : FsNode) :
    setEntry (setEntry es x c2) x c3 = setEntry es x c3 := by
  induction es with
  | nil => simp [setEntry]
  | cons e rest ih =>
    obtain ⟨n, c⟩ := e
    by_cases hn : n = x
    · simp [setEntry, hn]
    · simp [setEntry, hn, ih]

theorem setEntry_findEntry_id (es : List (String × FsNode)) (s : String) (c : FsNode)
    (h : findEntry es s = some c) : setEntry es s c = es := by
  induction es with
  | nil => cases h
  | cons e rest ih =>
    obtain ⟨n, c0⟩ := e
    by_cases hn : n = s
    · subst hn
      simp only [findEntry, if_pos rfl] at h
      injection h with h
      subst h
      simp [setEntry]
    · simp only [findEntry, hn, if_false] at h
      simp [setEntry, hn, ih h]

theorem getNode_nil (fs : FsNode) : getNode fs [] = some fs := by
  cases fs <;> rfl

theorem putNode_nil (fs v : FsNode) : putNode fs [] v = some v := by
  cases fs <;> rfl

theorem getNode_append (fs : FsNode) (p q : List String) :
    getNode fs (p ++ q) = (getNode fs p).bind (fun n => getNode n q) := by
  induction p generalizing fs with
  | nil => rw [List.nil_append, getNode_nil]; rfl
  | cons a p ih =>
    cases fs with
    | dir es pm =>
      simp only [List.cons_append, getNode]
      rcases findEntry es a with _ | c
      · rfl
      · exact ih c
    | file c pm mt => rfl
    | symlink t => rfl
    | other => rfl

theorem getNode_putNode_self (p : List String) (fs fs2 v : FsNode)
    (h : putNode fs p v = some fs2) : getNode fs2 p = some v := by
  induction p generalizing fs fs2 with
  | nil =>
    rw [putNode_nil] at h
    injection h with h
    subst h
    exact getNode_nil v
  | cons a p ih =>
    cases fs with
    | dir es pm =>
      simp only [putNode] at h
      rcases hf : findEntry es a with _ | c <;> simp only [hf] at h
      · cases p with
        | nil =>
          injection h with h
          subst h
          simp only [getNode, findEntry_append_self es a v hf, getNode_nil]
        | cons b q => cases h
      · rcases hput : putNode c p v with _ | c2 <;> simp only [hput] at h
        · cases h
        · injection h with h
          subst h
          simp only [getNode, findEntry_setEntry_found es a c c2 hf]
          exact ih c c2 hput
    | file c pm mt => cases h
    | symlink t => cases h
    | other => cases h

theorem putNode_putNode_same (p : List String) (fs fs1 : FsNode) (a b : FsNode)
    (h : putNode fs p a = some fs1) : putNode fs1 p b = putNode fs p b := by
  induction p generalizing fs fs1 with
  | nil => simp [putNode_nil]
  | cons x p ih =>
    cases fs with
    | dir es pm =>
      simp only [putNode] at h ⊢
      rcases hf : findEntry es x with _ | c <;> simp only [hf] at h
      · cases p with
        | nil =>
          injection h with h
          subst h
          simp only [putNode, findEntry_append_self es x a hf]
          rw [setEntry_append_self es x a b hf]
        | cons y q => cases h
      · rcases hput : putNode c p a with _ | c2 <;> simp only [hput] at h
        · cases h
        · injection h with h
          subst h
          simp only [putNode, findEntry_setEntry_found es x c c2 hf]
          rw [ih c c2 hput]
          rcases h3 : putNode c p b with _ | c3 <;> simp only [h3]
          rw [setEntry_setEntry]
    | file c pm mt => cases h
    | symlink t => cases h
    | other => cases h

theorem putNode_append (p q : List String) (fs sub : FsNode)
    (hget : getNode fs p = some sub) (v : FsNode) :
    putNode fs (p ++ q) v = (putNode sub q v).bind (fun sub2 => putNode fs p sub2) := by
  induction p generalizing fs with
  | nil =>
    rw [getNode_nil] at hget
    injection hget with hget
    subst hget
    rcases hq : putNode fs q v with _ | s2 <;>
      simp [hq, putNode_nil, Option.bind]
  | cons a p ih =>
    cases fs with
    | dir es pm =>
      simp only [getNode] at hget
      rcases hf : findEntry es a with _ | c <;> simp only [hf] at hget
      · cases hget
      · simp only [List.cons_append, putNode, hf, List.append_eq]
        rw [ih c hget]
        rcases hq : putNode sub q v with _ | sub2 <;>
          simp only [hq, Option.none_bind, Option.some_bind, putNode, hf]
    | file c pm mt => cases hget
    | symlink t => cases hget
    | other => cases hget

theorem putNode_some_of_get (p : List String) (fs x : FsNode)
    (hget : getNode fs p = some x) (v : FsNode) : ∃ fs2, putNode fs p v = some fs2 := by
  induction p generalizing fs with
  | nil => exact ⟨v, putNode_nil fs v⟩
  | cons a p ih =>
    cases fs with
    | dir es pm =>
      simp only [getNode] at hget
      rcases hf : findEntry es a with _ | c <;> simp only [hf] at hget
      · cases hget
      · obtain ⟨c2, h2⟩ := ih c hget
        exact ⟨FsNode.dir (setEntry es a c2) pm, by simp only [putNode, hf, h2]⟩
    | file c pm mt => cases hget
    | symlink t => cases hget
    | other => cases hget

theorem getNode_putNode_frame (p : List String) (q : List String) (fs fs2 v : FsNode)
    (h : putNode fs p v = some fs2) (h1 : ¬(p <+: q)) (h2 : ¬(q <+: p)) :
    getNode fs2 q = getNode fs q := by
  induction p generalizing fs fs2 q with
  | nil => exact absurd ( List.nil_prefix) h1
  | cons a p ih =>
    cases q with
    | nil => exact absurd ( List.nil_prefix) h2
    | cons b q2 =>
      cases fs with
      | dir es pm =>
        simp only [putNode] at h
        by_cases hab : a = b
        · subst hab
          have h1a : ¬(p <+: q2) := fun hc => h1 (List.cons_prefix_cons.mpr ⟨rfl, hc⟩)
          have h2a : ¬(q2 <+: p) := fun hc => h2 (List.cons_prefix_cons.mpr ⟨rfl, hc⟩)
          rcases hf : findEntry es a with _ | c <;> simp only [hf] at h
          · cases p with
            | nil => exact absurd ( List.nil_prefix) h1a
            | cons y r => cases h
          · rcases hput : putNode c p v with _ | c2 <;> simp only [hput] at h
            · cases h
            · injection h with h
              subst h
              simp only [getNode, findEntry_setEntry_found es a c c2 hf, hf]
              exact ih q2 c c2 hput h1a h2a
        · rcases hf : findEntry es a with _ | c <;> simp only [hf] at h
          · cases p with
            | nil =>
              injection h with h
              subst h
              simp only [getNode, findEntry_append_single es a b v hab]
            | cons y r => cases h
          · rcases hput : putNode c p v with _ | c2 <;> simp only [hput] at h
            · cases h
            · injection h with h
              subst h
              simp only [getNode, findEntry_setEntry_other es a b c2 hab]
      | file c pm mt => cases h
      | symlink t => cases h
      | other => cases h

theorem putNode_get_id (p : List String) (fs x : FsNode)
    (hget : getNode fs p = some x) : putNode fs p x = some fs := by
  induction p generalizing fs with
  | nil =>
    rw [getNode_nil] at hget
    injection hget with hget
    subst hget
    exact putNode_nil _ _
  | cons a p ih =>
    cases fs with
    | dir es pm =>
      simp only [getNode] at hget
      rcases hf : findEntry es a with _ | c <;> simp only [hf] at hget
      · cases hget
      · simp only [putNode, hf, ih c hget]
        rw [setEntry_findEntry_id es a c hf]
    | file c pm mt => cases hget
    | symlink t => cases hget
    | other => cases hget

theorem mkdirAll_existing (p : List String) (fs : FsNode)
    (es2 : List (String × FsNode)) (q2 perm : Nat)
    (hget : getNode fs p = some (FsNode.dir es2 q2)) : mkdirAll fs p perm = some fs := by
  induction p generalizing fs with
  | nil =>
    rw [getNode_nil] at hget
    injection hget with hget
    subst hget
    simp [mkdirAll, isDirNode]
  | cons a p ih =>
    cases fs with
    | dir es pm =>
      simp only [getNode] at hget
      rcases hf : findEntry es a with _ | c <;> simp only [hf] at hget
      · cases hget
      · simp only [mkdirAll, hf, ih c hget]
        rw [setEntry_findEntry_id es a c hf]
    | file c pm mt => cases hget
    | symlink t => cases hget
    | other => cases hget

theorem mkdirAll_fresh (parent : List String) (fs : FsNode)
    (pes : List (String × FsNode)) (pp : Nat) (name : String) (perm : Nat)
    (hget : getNode fs parent = some (FsNode.dir pes pp))
    (hfresh : findEntry pes name = none) :
    mkdirAll fs (parent ++ [name]) perm =
      putNode fs (parent ++ [name]) (FsNode.dir [] perm) := by
  induction parent generalizing fs with
  | nil =>
    rw [getNode_nil] at hget
    injection hget with hget
    subst hget
    simp only [List.nil_append, mkdirAll, putNode, hfresh, isDirNode, if_pos]
  | cons a parent ih =>
    cases fs with
    | dir es pm =>
      simp only [getNode] at hget
      rcases hf : findEntry es a with _ | c <;> simp only [hf] at hget
      · cases hget
      · simp only [List.cons_append, mkdirAll, putNode, hf, List.append_eq]
        rw [ih c hget]
    | file c pm mt => cases hget
    | symlink t => cases hget
    | other => cases hget

/-! ## CopyEngine (internal/fsutil/copy.go): C6 -/

/-- Model of `copyFile` (internal/fsutil/copy.go): create the destination's
parent directories with 0o755, open with `O_CREATE|O_WRONLY|O_TRUNC` and the
source permission, write the content, and `Chmod` the destination to the
source permission. -/
def copyFileM (fs : FsNode) (dst : List String) (content : List Nat) (perm : Nat) :
    Option FsNode :=
  match mkdirAll fs dst.dropLast 493 with
  | none => none
  | some fs1 =>
    match writeFile fs1 dst content perm with
    | none => none
    | some fs2 => chmod fs2 dst perm

mutual

/-- Walk body of `CopyDir` for one source node mirrored at `target`:
symlinks are recreated verbatim (replacing an existing destination link);
directories are created with the source permission bits (re-applied via
`Chmod` even when pre-existing) and their entries copied beneath;
regular files go through `copyFile` followed by `Chtimes` with the source
modification time; any other node kind is silently skipped.  The walk runs
over the source tree as captured at the start (faithful to `WalkDir`
whenever the destination does not lie inside the source). -/
def copyTreeNode (fs : FsNode) (t : FsNode) (target : List String) : Option FsNode :=
  match t with
  | FsNode.symlink linkTarget =>
    (match mkdirAll fs target.dropLast 493 with
     | none => none
     | some fs1 => symlinkForce fs1 target linkTarget)
  | FsNode.dir es p =>
    (match mkdirAll fs target p with
     | none => none
     | some fs1 =>
       match chmod fs1 target p with
       | none => none
       | some fs2 => copyEntriesNode fs2 es target)
  | FsNode.file c p mt =>
    (match copyFileM fs target c p with
     | none => none
     | some fs1 => chtimes fs1 target mt)
  | FsNode.other => some fs

/-- Walk of `CopyDir` over a directory's entries (order-independent: all
written targets are distinct). -/
def copyEntriesNode (fs : FsNode) (es : List (String × FsNode)) (target : List String) :
    Option FsNode :=
  match es with
  | [] => some fs
  | (n, c) :: rest =>
    match copyTreeNode fs c (target ++ [n]) with
    | none => none
    | some fs1 => copyEntriesNode fs1 rest target

end

/-- Model of `CopyDir` (internal/fsutil/copy.go): stat the source, require a
directory, create the destination with the source's permission bits and
`Chmod` it, then mirror every entry. -/
def CopyDir (fs : FsNode) (src dst : List String) : Option FsNode :=
  match statF fs src with
  | none => none
  | some (FsNode.dir es p) =>
    (match mkdirAll fs dst p with
     | none => none
     | some fs1 =>
       match chmod fs1 dst p with
       | none => none
       | some fs2 => copyEntriesNode fs2 es dst)
  | some _ => none

mutual

/-- Well-formed source tree for the round-trip statement: only directories,
regular files and symlinks (no `other` nodes), with duplicate-free entry
names in every directory — the shape of a real on-disk tree, and exactly the
tree kinds named by the round-trip property. -/
def treeOK : FsNode → Bool
  | FsNode.file _ _ _ => true
  | FsNode.symlink _ => true
  | FsNode.other => false
  | FsNode.dir es _ => namesFresh es && treeOKEntries es

/-- Entry names are pairwise distinct (each name is absent from its tail). -/
def namesFresh : List (String × FsNode) → Bool
  | [] => true
  | (n, _) :: rest => (findEntry rest n).isNone && namesFresh rest

def treeOKEntries : List (String × FsNode) → Bool
  | [] => true
  | (_, c) :: rest => treeOK c && treeOKEntries rest

end

theorem findEntry_none_forall (l : List (String × FsNode)) (n : String)
    (h : findEntry l n = none) : ∀ e ∈ l, e.1 ≠ n := by
  induction l with
  | nil => intro e he; cases he
  | cons e0 rest ih =>
    obtain ⟨m, c⟩ := e0
    intro e he
    by_cases hm : m = n
    · simp only [findEntry, hm, if_pos] at h
      cases h
    · simp only [findEntry, hm, if_false] at h
      rcases List.mem_cons.mp he with he1 | he1
      · subst he1; exact hm
      · exact ih h e he1

theorem putNode_fresh_some (parent : List String) (name : String)
    (pes : List (String × FsNode)) (pp : Nat) (fs v : FsNode)
    (hpar : getNode fs parent = some (FsNode.dir pes pp))
    (hfresh : findEntry pes name = none) :
    ∃ fs2, putNode fs (parent ++ [name]) v = some fs2 := by
  rw [putNode_append parent [name] fs _ hpar v]
  simp only [putNode, hfresh, Option.some_bind]
  exact putNode_some_of_get parent fs _ hpar _

theorem getNode_fresh_none (parent : List String) (name : String)
    (pes : List (String × FsNode)) (pp : Nat) (fs : FsNode)
    (hpar : getNode fs parent = some (FsNode.dir pes pp))
    (hfresh : findEntry pes name = none) :
    getNode fs (parent ++ [name]) = none := by
  rw [getNode_append, hpar, Option.some_bind]
  simp only [getNode, hfresh]

/-- Core copy lemma: copying a well-formed source subtree to a fresh target
slot (existing parent directory, absent entry) equals inserting the subtree
verbatim. -/
theorem copyTreeNode_fresh_aux (k : Nat) :
    ∀ (t : FsNode), sizeOf t ≤ k → treeOK t = true →
    ∀ (fs : FsNode) (parent : List String) (name : String)
      (pes : List (String × FsNode)) (pp : Nat),
      getNode fs parent = some (FsNode.dir pes pp) →
      findEntry pes name = none →
      copyTreeNode fs t (parent ++ [name]) = putNode fs (parent ++ [name]) t := by
  induction k with
  | zero =>
    intro t hsz
    exact absurd hsz (by cases t <;> simp)
  | succ k ih =>
    intro t hsz htok fs parent name pes pp hpar hfresh
    have hdrop : (parent ++ [name]).dropLast = parent := List.dropLast_concat
    have htgt : getNode fs (parent ++ [name]) = none :=
      getNode_fresh_none parent name pes pp fs hpar hfresh
    cases t with
    | file c p mt =>
      obtain ⟨fs2, hfs2⟩ := putNode_fresh_some parent name pes pp fs (FsNode.file c p 0)
        hpar hfresh
      have hw : writeFile fs (parent ++ [name]) c p = some fs2 := by
        simp only [writeFile, htgt]
        exact hfs2
      have hg2 : getNode fs2 (parent ++ [name]) = some (FsNode.file c p 0) :=
        getNode_putNode_self _ _ _ _ hfs2
      have hchmod : chmod fs2 (parent ++ [name]) p = some fs2 := by
        simp only [chmod, hg2]
        exact putNode_get_id _ _ _ hg2
      have hcf : copyFileM fs (parent ++ [name]) c p = some fs2 := by
        simp only [copyFileM, hdrop, mkdirAll_existing parent fs pes pp 493 hpar, hw, hchmod]
      simp only [copyTreeNode, hcf]
      simp only [chtimes, hg2]
      rw [putNode_putNode_same _ _ _ _ _ hfs2]
    | symlink l =>
      simp only [copyTreeNode, hdrop, mkdirAll_existing parent fs pes pp 493 hpar]
      simp only [symlinkForce, htgt]
    | other => simp [treeOK] at htok
    | dir es p =>
      rw [treeOK] at htok
      rw [Bool.and_eq_true] at htok
      obtain ⟨hnf, htoke⟩ := htok
      have hes : sizeOf es ≤ k := by
        have := FsNode.dir.sizeOf_spec es p
        omega
      obtain ⟨fs1, hfs1⟩ := putNode_fresh_some parent name pes pp fs (FsNode.dir [] p)
        hpar hfresh
      have hmk : mkdirAll fs (parent ++ [name]) p = some fs1 := by
        rw [mkdirAll_fresh parent fs pes pp name p hpar hfresh]
        exact hfs1
      have hg1 : getNode fs1 (parent ++ [name]) = some (FsNode.dir [] p) :=
        getNode_putNode_self _ _ _ _ hfs1
      have hchmod : chmod fs1 (parent ++ [name]) p = some fs1 := by
        simp only [chmod, hg1]
        exact putNode_get_id _ _ _ hg1
      have inner : ∀ (es2 : List (String × FsNode)), sizeOf es2 ≤ k →
          treeOKEntries es2 = true → namesFresh es2 = true →
          ∀ (done : List (String × FsNode)) (fsk : FsNode),
            putNode fs (parent ++ [name]) (FsNode.dir done p) = some fsk →
            (∀ e ∈ es2, findEntry done e.1 = none) →
            copyEntriesNode fsk es2 (parent ++ [name]) =
              putNode fs (parent ++ [name]) (FsNode.dir (done ++ es2) p) := by
        intro es2
        induction es2 with
        | nil =>
          intro _ _ _ done fsk hput _
          simp only [copyEntriesNode, List.append_nil]
          exact hput.symm
        | cons e rest ihe =>
          obtain ⟨n, c⟩ := e
          intro hsz2 htoke2 hnf2 done fsk hput hinv
          have hszc : sizeOf c ≤ k := by
            have h1 := List.cons.sizeOf_spec (n, c) rest
            have h2 := Prod.mk.sizeOf_spec n c
            omega
          have hszr : sizeOf rest ≤ k := by
            have h1 := List.cons.sizeOf_spec (n, c) rest
            omega
          rw [treeOKEntries, Bool.and_eq_true] at htoke2
          rw [namesFresh, Bool.and_eq_true] at hnf2
          have hgk : getNode fsk (parent ++ [name]) = some (FsNode.dir done p) :=
            getNode_putNode_self _ _ _ _ hput
          have hdn : findEntry done n = none := hinv (n, c) (List.Mem.head _)
          have step1 : copyTreeNode fsk c ((parent ++ [name]) ++ [n]) =
              putNode fsk ((parent ++ [name]) ++ [n]) c :=
            ih c hszc htoke2.1 fsk (parent ++ [name]) n done p hgk hdn
          have step2 : putNode fsk ((parent ++ [name]) ++ [n]) c =
              putNode fsk (parent ++ [name]) (FsNode.dir (done ++ [(n, c)]) p) := by
            rw [putNode_append (parent ++ [name]) [n] fsk _ hgk c]
            simp only [putNode, hdn, Option.some_bind]
          have step3 : putNode fsk (parent ++ [name]) (FsNode.dir (done ++ [(n, c)]) p) =
              putNode fs (parent ++ [name]) (FsNode.dir (done ++ [(n, c)]) p) :=
            putNode_putNode_same _ _ _ _ _ hput
          obtain ⟨fsk1, hfsk1⟩ := putNode_fresh_some parent name pes pp fs
            (FsNode.dir (done ++ [(n, c)]) p) hpar hfresh
          have hinv2 : ∀ e ∈ rest, findEntry (done ++ [(n, c)]) e.1 = none := by
            intro e he
            have hne : n ≠ e.1 :=
              fun hc => (findEntry_none_forall rest n (Option.isNone_iff_eq_none.mp hnf2.1)
                e he) hc.symm
            rw [findEntry_append_single done n e.1 c hne]
            exact hinv e (List.Mem.tail _ he)
          simp only [copyEntriesNode]
          rw [step1, step2, step3]
          simp only [hfsk1]
          rw [ihe hszr htoke2.2 hnf2.2 (done ++ [(n, c)]) fsk1 hfsk1 hinv2]
          rw [List.append_assoc]
          rfl
      simp only [copyTreeNode, hmk, hchmod]
      rw [inner es hes htoke hnf [] fs1 hfs1 (fun e _ => rfl)]
      rw [List.nil_append]

/-- C6: copying a well-formed source tree (directories, regular files,
symlinks) to a fresh destination succeeds and reproduces the source subtree
verbatim at the destination, leaving the source untouched: every relative
path resolves identically under the source and the destination — identical
relative file sets, identical file contents and modification times,
identical permission bits on every file and directory, identical symlink
targets. -/
theorem C6_copyDir_round_trip (fs : FsNode) (src dparent : List String) (dname : String)
    (ses : List (String × FsNode)) (sp : Nat)
    (pes : List (String × FsNode)) (pp : Nat)
    (hsrc : statF fs src = some (FsNode.dir ses sp))
    (htok : treeOK (FsNode.dir ses sp) = true)
    (hpar : getNode fs dparent = some (FsNode.dir pes pp))
    (hfresh : findEntry pes dname = none)
    (hnin : ¬(src <+: dparent ++ [dname])) :
    ∃ fs2, CopyDir fs src (dparent ++ [dname]) = some fs2 ∧
      (∀ rel, getNode fs2 ((dparent ++ [dname]) ++ rel) = getNode (FsNode.dir ses sp) rel) ∧
      (∀ rel, getNode fs2 (src ++ rel) = getNode (FsNode.dir ses sp) rel) := by
  obtain ⟨fs2, hfs2⟩ := putNode_fresh_some dparent dname pes pp fs (FsNode.dir ses sp)
    hpar hfresh
  have hcopy : CopyDir fs src (dparent ++ [dname]) = some fs2 := by
    have hbody : CopyDir fs src (dparent ++ [dname]) =
        copyTreeNode fs (FsNode.dir ses sp) (dparent ++ [dname]) := by
      simp only [CopyDir, hsrc, copyTreeNode]
    rw [hbody,
      copyTreeNode_fresh_aux (sizeOf (FsNode.dir ses sp)) (FsNode.dir ses sp)
        (Nat.le_refl _) htok fs dparent dname pes pp hpar hfresh]
    exact hfs2
  have hget2 : getNode fs2 (dparent ++ [dname]) = some (FsNode.dir ses sp) :=
    getNode_putNode_self _ _ _ _ hfs2
  have hsrcget : getNode fs src = some (FsNode.dir ses sp) := statF_getNode fs src _ hsrc
  have hns : ¬((dparent ++ [dname]) <+: src) := by
    rintro ⟨r, hr⟩
    have hh := hsrcget
    rw [← hr, getNode_append,
      getNode_fresh_none dparent dname pes pp fs hpar hfresh, Option.none_bind] at hh
    cases hh
  have hframe : getNode fs2 src = getNode fs src :=
    getNode_putNode_frame (dparent ++ [dname]) src fs fs2 _ hfs2 hns hnin
  refine ⟨fs2, hcopy, ?_, ?_⟩
  · intro rel
    rw [getNode_append, hget2, Option.some_bind]
  · intro rel
    rw [getNode_append, hframe, hsrcget, Option.some_bind]

set_option maxRecDepth 10000 in
/-- Witness for C6: a source skill with a nested 0o750 executable, a file
and a symlink is copied to a fresh destination; the nested executable
retains mode 0o750 (488) on both sides, and the whole relative tree is
reproduced. -/
theorem C6_copyDir_round_trip_witness :
    ∃ fs2, CopyDir
        (FsNode.dir [("s", FsNode.dir [("skill", FsNode.dir
            [("bin", FsNode.dir [("tool", FsNode.file [1, 2, 3] 488 7)] 493),
             ("SKILL.md", FsNode.file [104] 420 5),
             ("ln", FsNode.symlink "../elsewhere")] 493)] 493),
          ("h", FsNode.dir [] 493)] 493)
        ["s", "skill"] (["h"] ++ ["skill"]) = some fs2 ∧
      getNode fs2 ["h", "skill", "bin", "tool"] = some (FsNode.file [1, 2, 3] 488 7) ∧
      getNode fs2 ["s", "skill", "bin", "tool"] = some (FsNode.file [1, 2, 3] 488 7) ∧
      getNode fs2 ["h", "skill", "ln"] = some (FsNode.symlink "../elsewhere") := by
  obtain ⟨fs2, h1, h2, h3⟩ := C6_copyDir_round_trip
    (FsNode.dir [("s", FsNode.dir [("skill", FsNode.dir
        [("bin", FsNode.dir [("tool", FsNode.file [1, 2, 3] 488 7)] 493),
         ("SKILL.md", FsNode.file [104] 420 5),
         ("ln", FsNode.symlink "../elsewhere")] 493)] 493),
      ("h", FsNode.dir [] 493)] 493)
    ["s", "skill"] ["h"] "skill"
    [("bin", FsNode.dir [("tool", FsNode.file [1, 2, 3] 488 7)] 493),
     ("SKILL.md", FsNode.file [104] 420 5),
     ("ln", FsNode.symlink "../elsewhere")] 493
    [] 493
    rfl rfl rfl rfl (by decide)
  refine ⟨fs2, h1, ?_, ?_, ?_⟩
  · exact (h2 ["bin", "tool"]).trans rfl
  · exact (h3 ["bin", "tool"]).trans rfl
  · exact (h2 ["ln"]).trans rfl

/-! ## InstallEngine: install with conflict policy (C7, C10) -/

/-- The result record of `InstallSkill` (internal/install). -/
structure InstallResult where
  Installed : Bool
  Conflict : Bool
  Renamed : Bool
  Name : String
  Destination : List String
deriving Repr, DecidableEq

/-- Model of `nextAvailableDestination` (internal/install): probe
`skillName-i` for i = 2, 3, ... and return the first candidate that does not
exist.  The unbounded Go loop is embedded with explicit fuel; `InstallSkill`
passes one more than the harness directory's entry count plus one, which by
pigeonhole always suffices (each successful probe names a distinct existing
entry). -/
def nextAvailableDestination (fs : FsNode) (harnessPath : List String) (skillName : String) :
    Nat → Nat → Option (List String × String)
  | 0, _ => none
  | fuel + 1, i =>
    let candidateName := skillName ++ "-" ++ toString i
    let candidatePath := harnessPath ++ [candidateName]
    if existsF fs candidatePath then
      nextAvailableDestination fs harnessPath skillName fuel (i + 1)
    else some (candidatePath, candidateName)

/-- Number of entries of the directory at `p` (the fuel bound for the rename
probe). -/
def dirEntryCount (fs : FsNode) (p : List String) : Nat :=
  match getNode fs p with
  | some (FsNode.dir es _) => es.length
  | _ => 0

/-- Model of `InstallSkill` (internal/install): stat the source (must be a
directory), create the harness directory, compute the destination
`harness/basename(source)` (`filepath.Base` of a component path is its last
component), and on conflict branch on the action: `skip` reports without
copying, `overwrite` removes then copies, `rename` probes for the first free
`name-i`, anything else is the unknown-conflict-action error — examined only
when a conflict exists. -/
def InstallSkill (fs : FsNode) (skillSourcePath harnessPath : List String)
    (action : String) : Except String (FsNode × InstallResult) :=
  match statF fs skillSourcePath with
  | none => .error "stat source"
  | some sourceInfo =>
    if ¬isDirNode sourceInfo then .error "skill source path is not a directory"
    else
      match mkdirAll fs harnessPath 493 with
      | none => .error "mkdir harness"
      | some fs1 =>
        match skillSourcePath.getLast? with
        | none => .error "empty source path"
        | some skillName =>
          let destination := harnessPath ++ [skillName]
          if existsF fs1 destination then
            if action = "skip" then
              .ok (fs1, ⟨false, true, false, skillName, destination⟩)
            else if action = "overwrite" then
              match CopyDir (delNode fs1 destination) skillSourcePath destination with
              | none => .error "copy"
              | some fs2 => .ok (fs2, ⟨true, true, false, skillName, destination⟩)
            else if action = "rename" then
              match nextAvailableDestination fs1 harnessPath skillName
                  (dirEntryCount fs1 harnessPath + 2) 2 with
              | none => .error "no available destination"
              | some rename2 =>
                match CopyDir fs1 skillSourcePath rename2.1 with
                | none => .error "copy"
                | some fs2 => .ok (fs2, ⟨true, true, true, rename2.2, rename2.1⟩)
            else .error ("unknown conflict action: " ++ action)
          else
            match CopyDir fs1 skillSourcePath destination with
            | none => .error "copy"
            | some fs2 => .ok (fs2, ⟨true, false, false, skillName, destination⟩)

theorem append_dash_two (nm : String) : nm ++ "-" ++ toString (2 : Nat) = nm ++ "-2" := by
  have h : "-" ++ toString (2 : Nat) = "-2" := by decide
  rw [String.append_assoc, h]

theorem append_dash_three (nm : String) : nm ++ "-" ++ toString (3 : Nat) = nm ++ "-3" := by
  have h : "-" ++ toString (3 : Nat) = "-3" := by decide
  rw [String.append_assoc, h]

/-- C7: with conflict action `rename` and the destination name taken, the
engine probes `name-2`, `name-3`, ... and installs at the first free name,
reporting `installed`, `conflict` and `renamed` true with the chosen name:
with `name` present it picks `name-2`; with `name` and `name-2` present it
picks `name-3`. -/
theorem C7_install_rename_probes (fs : FsNode) (src harness : List String) (name : String)
    (ses : List (String × FsNode)) (sp : Nat)
    (hsrc : statF fs src = some (FsNode.dir ses sp))
    (hlast : src.getLast? = some name)
    (hes : List (String × FsNode)) (hp : Nat)
    (hhar : getNode fs harness = some (FsNode.dir hes hp))
    (hconf : existsF fs (harness ++ [name]) = true) :
    (existsF fs (harness ++ [name ++ "-2"]) = false →
      ∀ fs2 res, InstallSkill fs src harness "rename" = .ok (fs2, res) →
        res = ⟨true, true, true, name ++ "-2", harness ++ [name ++ "-2"]⟩) ∧
    (existsF fs (harness ++ [name ++ "-2"]) = true →
      existsF fs (harness ++ [name ++ "-3"]) = false →
      ∀ fs2 res, InstallSkill fs src harness "rename" = .ok (fs2, res) →
        res = ⟨true, true, true, name ++ "-3", harness ++ [name ++ "-3"]⟩) := by
  have hmk : mkdirAll fs harness 493 = some fs := mkdirAll_existing harness fs hes hp 493 hhar
  have hfuel : dirEntryCount fs harness + 2 = (dirEntryCount fs harness + 1) + 1 := rfl
  constructor
  · intro hfree fs2 res hok
    rw [InstallSkill] at hok
    rw [hsrc] at hok
    simp only [isDirNode, Bool.not_true, hmk, hlast, hconf, if_true] at hok
    rw [hfuel] at hok
    rw [nextAvailableDestination] at hok
    simp only [append_dash_two, hfree, if_false, Bool.false_eq_true] at hok
    rcases hcd : CopyDir fs src (harness ++ [name ++ "-2"]) with _ | fs3 <;>
      rw [hcd] at hok
    · cases hok
    · injection hok with hok
      injection hok with hok1 hok2
      exact hok2.symm
  · intro htaken hfree fs2 res hok
    rw [InstallSkill] at hok
    rw [hsrc] at hok
    simp only [isDirNode, Bool.not_true, hmk, hlast, hconf, if_true] at hok
    rw [hfuel] at hok
    rw [nextAvailableDestination] at hok
    simp only [append_dash_two, htaken, if_true] at hok
    rw [nextAvailableDestination] at hok
    simp only [show (2 : Nat) + 1 = 3 from rfl, append_dash_three, hfree, if_false,
      Bool.false_eq_true] at hok
    rcases hcd : CopyDir fs src (harness ++ [name ++ "-3"]) with _ | fs3 <;>
      rw [hcd] at hok
    · cases hok
    · injection hok with hok
      injection hok with hok1 hok2
      exact hok2.symm

/-- C10: the unknown-conflict-action error can only arise when an entry
already exists at `harness/basename(source)`; with no entry at the
destination the action value is never examined, and a successful install
reports `installed` true and `conflict` false for every action string. -/
theorem C10_unknown_action_needs_conflict (fs : FsNode) (src harness : List String)
    (name : String)
    (ses : List (String × FsNode)) (sp : Nat)
    (hsrc : statF fs src = some (FsNode.dir ses sp))
    (hlast : src.getLast? = some name)
    (hes : List (String × FsNode)) (hp : Nat)
    (hhar : getNode fs harness = some (FsNode.dir hes hp)) :
    (existsF fs (harness ++ [name]) = false →
      ∀ action fs2 res, InstallSkill fs src harness action = .ok (fs2, res) →
        res = ⟨true, false, false, name, harness ++ [name]⟩) ∧
    (existsF fs (harness ++ [name]) = false →
      ∀ action, InstallSkill fs src harness action ≠
        .error ("unknown conflict action: " ++ action)) ∧
    (existsF fs (harness ++ [name]) = true →
      ∀ action, action ≠ "skip" → action ≠ "overwrite" → action ≠ "rename" →
        InstallSkill fs src harness action =
          .error ("unknown conflict action: " ++ action)) := by
  have hmk : mkdirAll fs harness 493 = some fs := mkdirAll_existing harness fs hes hp 493 hhar
  constructor
  · intro hfree action fs2 res hok
    rw [InstallSkill] at hok
    rw [hsrc] at hok
    simp only [isDirNode, Bool.not_true, hmk, hlast, hfree, Bool.false_eq_true,
      if_false] at hok
    rcases hcd : CopyDir fs src (harness ++ [name]) with _ | fs3 <;> rw [hcd] at hok
    · cases hok
    · injection hok with hok
      injection hok with hok1 hok2
      exact hok2.symm
  constructor
  · intro hfree action heq
    rw [InstallSkill] at heq
    rw [hsrc] at heq
    simp only [isDirNode, Bool.not_true, hmk, hlast, hfree, Bool.false_eq_true,
      if_false] at heq
    rcases hcd : CopyDir fs src (harness ++ [name]) with _ | fs3 <;> rw [hcd] at heq
    · injection heq with heq
      have hl := congrArg String.length heq
      rw [String.length_append] at hl
      have h4 : ("copy").length = 4 := by decide
      have h25 : ("unknown conflict action: ").length = 25 := by decide
      rw [h4, h25] at hl
      omega
    · cases heq
  · intro hconf action h1 h2 h3
    rw [InstallSkill]
    rw [hsrc]
    simp only [isDirNode, Bool.not_true, hmk, hlast, hconf, if_true]
    rw [if_neg h1, if_neg h2, if_neg h3]
    simp

/-- Witness filesystem: source skill `alpha` under `/s`, harness `/h`
already holding an entry `alpha`. -/
def fsAlphaTaken : FsNode :=
  FsNode.dir
    [("s", FsNode.dir [("alpha", FsNode.dir [("SKILL.md", FsNode.file [104] 420 0)] 493)] 493),
     ("h", FsNode.dir [("alpha", FsNode.dir [] 493)] 493)] 493

/-- Witness filesystem: harness holding both `alpha` and `alpha-2`. -/
def fsAlphaTaken2 : FsNode :=
  FsNode.dir
    [("s", FsNode.dir [("alpha", FsNode.dir [("SKILL.md", FsNode.file [104] 420 0)] 493)] 493),
     ("h", FsNode.dir [("alpha", FsNode.dir [] 493), ("alpha-2", FsNode.dir [] 493)] 493)] 493

/-- Witness filesystem: empty harness. -/
def fsAlphaFresh : FsNode :=
  FsNode.dir
    [("s", FsNode.dir [("alpha", FsNode.dir [("SKILL.md", FsNode.file [104] 420 0)] 493)] 493),
     ("h", FsNode.dir [] 493)] 493

/-- Witness for C7: with `alpha` taken the rename install lands on
`alpha-2`; with `alpha` and `alpha-2` taken it lands on `alpha-3`. -/
theorem C7_install_rename_probes_witness :
    (∃ fs2 res, InstallSkill fsAlphaTaken ["s", "alpha"] ["h"] "rename" = .ok (fs2, res) ∧
      res = ⟨true, true, true, "alpha-2", ["h", "alpha-2"]⟩) ∧
    (∃ fs2 res, InstallSkill fsAlphaTaken2 ["s", "alpha"] ["h"] "rename" = .ok (fs2, res) ∧
      res = ⟨true, true, true, "alpha-3", ["h", "alpha-3"]⟩) := by
  constructor
  · have hrun : InstallSkill fsAlphaTaken ["s", "alpha"] ["h"] "rename" =
        .ok (FsNode.dir
          [("s", FsNode.dir
            [("alpha", FsNode.dir [("SKILL.md", FsNode.file [104] 420 0)] 493)] 493),
           ("h", FsNode.dir
            [("alpha", FsNode.dir [] 493),
             ("alpha-2", FsNode.dir [("SKILL.md", FsNode.file [104] 420 0)] 493)] 493)] 493,
          ⟨true, true, true, "alpha-2", ["h", "alpha-2"]⟩) := rfl
    have h := (C7_install_rename_probes fsAlphaTaken ["s", "alpha"] ["h"] "alpha"
      [("SKILL.md", FsNode.file [104] 420 0)] 493 rfl rfl
      [("alpha", FsNode.dir [] 493)] 493 rfl rfl).1 rfl _ _ hrun
    exact ⟨_, _, hrun, h⟩
  · have hrun : InstallSkill fsAlphaTaken2 ["s", "alpha"] ["h"] "rename" =
        .ok (FsNode.dir
          [("s", FsNode.dir
            [("alpha", FsNode.dir [("SKILL.md", FsNode.file [104] 420 0)] 493)] 493),
           ("h", FsNode.dir
            [("alpha", FsNode.dir [] 493), ("alpha-2", FsNode.dir [] 493),
             ("alpha-3", FsNode.dir [("SKILL.md", FsNode.file [104] 420 0)] 493)] 493)] 493,
          ⟨true, true, true, "alpha-3", ["h", "alpha-3"]⟩) := rfl
    have h := (C7_install_rename_probes fsAlphaTaken2 ["s", "alpha"] ["h"] "alpha"
      [("SKILL.md", FsNode.file [104] 420 0)] 493 rfl rfl
      [("alpha", FsNode.dir [] 493), ("alpha-2", FsNode.dir [] 493)] 493 rfl rfl).2
      rfl rfl _ _ hrun
    exact ⟨_, _, hrun, h⟩

/-- Witness for C10: an unknown action `merge` fails only against the taken
harness; against the empty harness the unknown action `weird` installs with
`installed` true and `conflict` false. -/
theorem C10_unknown_action_needs_conflict_witness :
    InstallSkill fsAlphaTaken ["s", "alpha"] ["h"] "merge" =
      .error ("unknown conflict action: " ++ "merge") ∧
    (∃ fs2 res, InstallSkill fsAlphaFresh ["s", "alpha"] ["h"] "weird" = .ok (fs2, res) ∧
      res = ⟨true, false, false, "alpha", ["h", "alpha"]⟩) := by
  constructor
  · exact (C10_unknown_action_needs_conflict fsAlphaTaken ["s", "alpha"] ["h"] "alpha"
      [("SKILL.md", FsNode.file [104] 420 0)] 493 rfl rfl
      [("alpha", FsNode.dir [] 493)] 493 rfl).2.2 rfl "merge"
      (by decide) (by decide) (by decide)
  · have hrun : InstallSkill fsAlphaFresh ["s", "alpha"] ["h"] "weird" =
        .ok (FsNode.dir
          [("s", FsNode.dir
            [("alpha", FsNode.dir [("SKILL.md", FsNode.file [104] 420 0)] 493)] 493),
           ("h", FsNode.dir
            [("alpha", FsNode.dir [("SKILL.md", FsNode.file [104] 420 0)] 493)] 493)] 493,
          ⟨true, false, false, "alpha", ["h", "alpha"]⟩) := rfl
    have h := (C10_unknown_action_needs_conflict fsAlphaFresh ["s", "alpha"] ["h"] "alpha"
      [("SKILL.md", FsNode.file [104] 420 0)] 493 rfl rfl
      [] 493 rfl).1 rfl "weird" _ _ hrun
    exact ⟨_, _, hrun, h⟩

end Skiller